import Mathlib

/-!
Verification of the NIL reconciliation and aggregation pipeline.

This file is a shallow embedding, in Lean 4, of the core data
transformations of the repository:

* `src/processed/nil_institution_extract.py` — money parsing
  (`parse_money`), name canonicalization (`clean_name`), and the fuzzy
  entity-resolution loop building the team-name → `unitid` mapping;
* `src/dedupe_nil_deals.py` — the athlete-level deduplication
  (`athlete_fact`);
* `src/dashboard.py` — the school-level summary table (`school_money` /
  `school_table`) with its `% of NIL Value` / `% of Deals` columns.

Modelling conventions:

* Python scalars that may be null are `Option _`; a cell that may be
  NaN, numeric or text is `PyVal`.
* Python floats are modelled as `ℚ`.  All float values arising here are
  decimal literals scaled by powers of ten, so `ℚ` represents them
  exactly; IEEE rounding, `inf`/`nan` literals and underscore digit
  separators are outside the model.
* pandas `Series.str`/`groupby`/`unique` operations are modelled on
  `List`.  pandas `groupby(...)` sorts group keys; we keep groups in
  first-appearance order instead, which is immaterial for every claim
  proved here (all are order-independent or concern single groups).
* Python `re` word characters (`\w`) are modelled as ASCII
  alphanumerics, `_`, or any non-ASCII character (Python's unicode `\w`
  also covers non-ASCII letters; treating all non-ASCII as word
  characters is faithful on the ASCII data exercised here).
-/

set_option maxRecDepth 10000

/-! ## Generic character and list utilities -/

/-- Python whitespace for `str.strip` and regex `\s` (ASCII part). -/
def pyWs (c : Char) : Bool :=
  c == ' ' || c == '\t' || c == '\n' || c == '\r' || c == Char.ofNat 11 || c == Char.ofNat 12

/-- Python `str.strip()` on a character list. -/
def pyStrip (l : List Char) : List Char :=
  ((l.dropWhile pyWs).reverse.dropWhile pyWs).reverse

/-- Python `str.lower()` (ASCII). -/
def pyLower (l : List Char) : List Char := l.map Char.toLower

/-- Lexicographic comparison of code points, Python's `<` on strings. -/
def listStrLt : List Char → List Char → Bool
  | [], [] => false
  | [], _ :: _ => true
  | _ :: _, [] => false
  | a :: as, b :: bs =>
    if a.toNat < b.toNat then true
    else if b.toNat < a.toNat then false
    else listStrLt as bs

/-- First-occurrence deduplication, as pandas `Series.unique` /
distinct `groupby` keys (in order of first appearance). -/
def pdUnique {α : Type _} [DecidableEq α] : List α → List α
  | [] => []
  | x :: xs => x :: (pdUnique xs).filter (fun y => decide (y ≠ x))

/-- Digit run to a natural number. -/
def digitsToNat (ds : List Char) : ℕ :=
  ds.foldl (fun a c => 10 * a + (c.toNat - '0'.toNat)) 0

/-! ## Value domain for pandas cells

`PyVal.none` is a missing value (NaN after `read_csv`), `PyVal.num` an
already-numeric cell, `PyVal.str` a text cell. -/

inductive PyVal where
  | none : PyVal
  | num : ℚ → PyVal
  | str : String → PyVal
deriving DecidableEq

/-! ## Money normalizer — `parse_money`
(`src/processed/nil_institution_extract.py`, lines 88–127)

Python `float(...)` literal parsing is split into a decidable syntactic
stage (`pyFloatParse`, producing a `FloatLit`) and an exact value stage
(`floatLitVal : FloatLit → ℚ`). -/

/-- Parsed shape of a Python float literal: sign, integer-part digits,
fraction digits with their count, and decimal exponent. -/
structure FloatLit where
  sgn : Bool
  ip : ℕ
  fp : ℕ
  fl : ℕ
  ex : ℤ
deriving DecidableEq

/-- Exact value denoted by a parsed float literal. -/
def floatLitVal (f : FloatLit) : ℚ :=
  (if f.sgn then -1 else 1) * ((f.ip : ℚ) + (f.fp : ℚ) / 10 ^ f.fl) * (10 : ℚ) ^ f.ex

/-- Syntax of a Python float literal (after whitespace stripping):
optional sign, digits with optional fraction (at least one digit
overall), optional exponent.  `inf`/`nan` and `_` separators are
outside the model (not exercised by this repository's data paths). -/
def pyFloatParse (l : List Char) : Option FloatLit :=
  let sg : Bool × List Char :=
    match l with
    | '+' :: r => (false, r)
    | '-' :: r => (true, r)
    | _ => (false, l)
  let ip := sg.2.takeWhile Char.isDigit
  let l2 := sg.2.dropWhile Char.isDigit
  let fr : List Char × List Char :=
    match l2 with
    | '.' :: r => (r.takeWhile Char.isDigit, r.dropWhile Char.isDigit)
    | _ => ([], l2)
  if ip.isEmpty && fr.1.isEmpty then Option.none
  else
    match fr.2 with
    | [] => some ⟨sg.1, digitsToNat ip, digitsToNat fr.1, fr.1.length, 0⟩
    | e :: r =>
      if e == 'e' || e == 'E' then
        let es : Bool × List Char :=
          match r with
          | '+' :: r2 => (false, r2)
          | '-' :: r2 => (true, r2)
          | _ => (false, r)
        let ed := es.2.takeWhile Char.isDigit
        if ed.isEmpty || !((es.2.dropWhile Char.isDigit).isEmpty) then Option.none
        else some ⟨sg.1, digitsToNat ip, digitsToNat fr.1, fr.1.length,
                   (if es.1 then -1 else 1) * (digitsToNat ed : ℤ)⟩
      else Option.none

/-- Python `float(s)` on a string, as an exact rational; `Option.none`
is a raised `ValueError`. -/
def pyFloat (l : List Char) : Option ℚ :=
  (pyFloatParse (pyStrip l)).map floatLitVal

/-- Source line 102: `s = str(v).strip()`. -/
def money_s0 (raw : String) : List Char := pyStrip raw.data

/-- Source line 106: `s = s.replace("$", "").replace(",", "").strip().lower()`. -/
def money_key (raw : String) : List Char :=
  pyLower (pyStrip (((money_s0 raw).filter (fun c => !(c == '$'))).filter
    (fun c => !(c == ','))))

/-- Source line 108 sentinel set. -/
def money_sentinels : List (List Char) :=
  ["undisclosed".data, "n/a".data, "na".data, "unknown".data]

/-- `parse_money` (source lines 88–127).  Each `match pyFloatParse …`
mirrors a `try: float(...) except ValueError:` block of the source; an
`Except.error` result would be an uncaught Python exception. -/
def parse_money (v : PyVal) : Except String ℚ :=
  match v with
  | .none => .ok 0
  | .num q => .ok q
  | .str raw =>
    if (money_s0 raw).isEmpty then .ok 0
    else
      let s := money_key raw
      if s ∈ money_sentinels then .ok 0
      else if s.getLast? = some 'm' then
        match pyFloatParse (pyStrip s.dropLast) with
        | some f => .ok (floatLitVal f * 1000000)
        | Option.none => .ok 0
      else if s.getLast? = some 'k' then
        match pyFloatParse (pyStrip s.dropLast) with
        | some f => .ok (floatLitVal f * 1000)
        | Option.none => .ok 0
      else
        match pyFloatParse (pyStrip s) with
        | some f => .ok (floatLitVal f)
        | Option.none => .ok 0

/-! ## Name canonicalizer — `clean_name`
(`src/processed/nil_institution_extract.py`, lines 169–188)

The regex substitutions `re.sub(r"\bw\b", rep, s)` are modelled by a
left-to-right scanner (`reSubGo`) over the character list, carrying the
word/non-word class of the previous character (the left `\b`) and a
countdown of match characters still to consume, so that the recursion
is structural and kernel-computable. -/

/-- Model of regex `\w`: ASCII alphanumerics, `_`, and all non-ASCII
characters (approximating unicode word characters). -/
def wordChar (c : Char) : Bool := c.isAlphanum || c == '_' || !(decide (c.toNat ≤ 127))

/-- Characters kept by `re.sub(r"[^a-z0-9 ]", " ", s)`. -/
def keepChar (c : Char) : Bool :=
  (decide ('a' ≤ c) && decide (c ≤ 'z')) || c.isDigit || c == ' '

/-- Does pattern `p` match at the head of `l`, with the right `\b`
satisfied (character after the match non-word, or end of string)?
All patterns used here start and end with word characters, so the
right `\b` is exactly this condition and the left `\b` is the
scanner's `prev` state. -/
def patHere : List Char → List Char → Bool
  | [], [] => true
  | [], c :: _ => !wordChar c
  | _ :: _, [] => false
  | a :: p, b :: l => a == b && patHere p l

/-- First pattern of the alternation matching at the head of `l`. -/
def findPat (pats : List (List Char)) (l : List Char) : Option (List Char) :=
  pats.find? (fun p => !p.isEmpty && patHere p l)

/-- One pass of `re.sub(r"\bw1\b|\bw2\b|…", rep, s)`: `skip` counts
characters of a running match still to consume, `prev` is whether the
previous character of the original string was a word character. -/
def reSubGo (pats : List (List Char)) (rep : List Char) : ℕ → Bool → List Char → List Char
  | _, _, [] => []
  | skip+1, _, c :: rest => reSubGo pats rep skip (wordChar c) rest
  | 0, prev, c :: rest =>
    if prev then c :: reSubGo pats rep 0 (wordChar c) rest
    else
      match findPat pats (c :: rest) with
      | some (_ :: qs) => rep ++ reSubGo pats rep qs.length (wordChar c) rest
      | _ => c :: reSubGo pats rep 0 (wordChar c) rest

/-- `re.sub` of a word-bounded alternation over a whole string. -/
def reSub (pats : List (List Char)) (rep : List Char) (l : List Char) : List Char :=
  reSubGo pats rep 0 false l

/-- The seven `re.sub` rules of `clean_name`, in source order
(lines 176–182). -/
def cleanRules (l : List Char) : List Char :=
  reSub ["state university".data] "state".data
    (reSub ["football".data] []
      (reSub ["fb".data, "ncaa".data] []
        (reSub ["men".data, "women".data] []
          (reSub ["the".data] []
            (reSub ["college".data] []
              (reSub ["university".data] [] l))))))

/-- Source line 185: `re.sub(r"[^a-z0-9 ]", " ", s)`. -/
def stripNonKeep (l : List Char) : List Char :=
  l.map (fun c => if keepChar c then c else ' ')

/-- Scanner for `re.sub(r"\s+", " ", s)`: `inRun` is whether we are
inside a whitespace run whose single replacement space was emitted. -/
def collapseGo : Bool → List Char → List Char
  | _, [] => []
  | inRun, c :: rest =>
    if pyWs c then
      if inRun then collapseGo true rest else ' ' :: collapseGo true rest
    else c :: collapseGo false rest

/-- Source line 186: `re.sub(r"\s+", " ", s)`. -/
def collapseWs (l : List Char) : List Char := collapseGo false l

/-- The `clean_name` pipeline on a character list:
lower, the seven word rules, punctuation strip, whitespace collapse,
strip. -/
def cleanList (l : List Char) : List Char :=
  pyStrip (collapseWs (stripNonKeep (cleanRules (pyLower l))))

/-- `clean_name` (source lines 169–188), including the `pd.isna`
branch mapping a missing scalar to `""`. -/
def clean_name : Option String → String
  | Option.none => ""
  | some s => String.mk (cleanList s.data)

/-! ## Entity resolver
(`src/processed/nil_institution_extract.py`, lines 130–257) -/

/-- pandas `astype(str)` on a possibly-missing string cell: a missing
value (NaN) renders as the string `"nan"`. -/
def pdAstypeStr : Option String → String
  | Option.none => "nan"
  | some s => s

/-- Raw deal row of `on3_nil_deals_all.csv`, restricted to the columns
the resolver touches (`team_col` resolves to `team_committed` here). -/
structure NilDeal where
  deal_key : Option String
  deal_amount : PyVal
  team_committed : Option String
deriving DecidableEq

/-- Source line 162:
`nil["team_name_raw"] = nil[team_col].astype(str).str.strip()`. -/
def team_name_raw (t : Option String) : List Char := pyStrip (pdAstypeStr t).data

/-- Source line 191: `nil["team_name_clean"] = nil["team_name_raw"].apply(clean_name)`.
`clean_name` receives an actual string here (`astype(str)` already ran),
so its `pd.isna` branch never fires in this pipeline. -/
def team_name_clean (t : Option String) : String := String.mk (cleanList (team_name_raw t))

/-- Source line 195: `nil = nil[nil["team_name_clean"] != ""]`. -/
def nilFiltered (rows : List NilDeal) : List NilDeal :=
  rows.filter (fun r => !(team_name_clean r.team_committed == ""))

/-- Source line 201: `unique_teams = nil["team_name_clean"].dropna().unique()`
(all entries are strings, so `dropna` is a no-op; `unique` keeps first
appearances). -/
def unique_teams (rows : List NilDeal) : List String :=
  pdUnique ((nilFiltered rows).map (fun r => team_name_clean r.team_committed))

/-- Institution registry row (`unitid` plus the detected name column). -/
structure IpedsInst where
  name : String
  unitid : ℤ
deriving DecidableEq

/-- Source line 192: cleaned registry names, positionally aligned with
the registry (`ipeds["school_name_clean"]`). -/
def ipeds_names (insts : List IpedsInst) : List String :=
  insts.map (fun i => String.mk (cleanList i.name.data))

/-- Fold of rapidfuzz `extractOne`: keep the best (choice, score,
index), updating only on strictly greater scores, so ties keep the
earliest choice. -/
def extractOneAux (scorer : String → String → ℚ) (q : String) :
    List String → ℕ → (String × ℚ × ℕ) → (String × ℚ × ℕ)
  | [], _, best => best
  | n :: ns, i, best =>
    extractOneAux scorer q ns (i + 1) (if best.2.1 < scorer q n then (n, scorer q n, i) else best)

/-- rapidfuzz `process.extractOne(t, ipeds_names, scorer=fuzz.WRatio)`
(source lines 213–217).  The weighted-ratio scorer is an abstract
parameter (the spec treats the similarity function as pluggable). -/
def extractOne (scorer : String → String → ℚ) (q : String) (names : List String) :
    Option (String × ℚ × ℕ) :=
  match names with
  | [] => Option.none
  | n :: ns => some (extractOneAux scorer q ns 1 (n, scorer q n, 0))

/-- A row of the QA audit table `mapping_records` (source lines 224–232). -/
structure MapRecord where
  team_name_clean : String
  matched_school_clean : String
  match_score : ℚ
  unitid : ℤ
deriving DecidableEq

/-- One iteration of the resolution loop (source lines 209–232): skip
blank names, find the best-scoring institution, accept iff the score
is ≥ 85. -/
def mapping_step (scorer : String → String → ℚ) (insts : List IpedsInst) (t : String) :
    Option MapRecord :=
  if t = "" then Option.none
  else
    match extractOne scorer t (ipeds_names insts) with
    | Option.none => Option.none
    | some (m, sc, idx) =>
      if 85 ≤ sc then
        match insts[idx]? with
        | some inst => some ⟨t, m, sc, inst.unitid⟩
        | Option.none => Option.none
      else Option.none

/-- The QA table, one candidate entry per distinct cleaned name. -/
def mapping_records (scorer : String → String → ℚ) (insts : List IpedsInst)
    (rows : List NilDeal) : List MapRecord :=
  (unique_teams rows).filterMap (mapping_step scorer insts)

/-- Lookup in the `mapping` dict built by the same loop. -/
def mapping_lookup (scorer : String → String → ℚ) (insts : List IpedsInst)
    (rows : List NilDeal) (t : String) : Option ℤ :=
  ((mapping_records scorer insts rows).find? (fun r => r.team_name_clean == t)).map
    (fun r => r.unitid)

/-- Source line 242: `nil["unitid"] = nil["team_name_clean"].map(mapping)`. -/
def row_unitid (scorer : String → String → ℚ) (insts : List IpedsInst)
    (rows : List NilDeal) (r : NilDeal) : Option ℤ :=
  mapping_lookup scorer insts rows (team_name_clean r.team_committed)

/-- Source line 248: `mapped = nil.dropna(subset=["unitid"])` — the
deals that enter institution-level aggregation. -/
def mapped_rows (scorer : String → String → ℚ) (insts : List IpedsInst)
    (rows : List NilDeal) : List NilDeal :=
  (nilFiltered rows).filter (fun r => (row_unitid scorer insts rows r).isSome)

/-! ## Athlete deduplicator — `athlete_fact`
(`src/dedupe_nil_deals.py`, lines 41–70) -/

/-- Raw deal row as read by `dedupe_nil_deals.py`. -/
structure DealRow where
  deal_key : Option String
  deal_date : Option String
  deal_amount : PyVal
  player_key : Option String
  player_name : Option String
  team_committed : Option String
  sport_name : Option String
  player_state : Option String
  player_position : Option String
  player_class_year : Option String
deriving DecidableEq

/-- Output row of the deduplicator. -/
structure AthleteFact where
  player_key : Option String
  player_name : Option String
  team_committed : Option String
  deal_value : Option PyVal
  deal_count : ℕ
  sport_name : Option String
  player_state : Option String
  player_position : Option String
  player_class_year : Option String
deriving DecidableEq

/-- pandas elementwise max under Python `>`: numeric for numbers,
lexicographic for strings.  Comparing mixed types raises `TypeError`
in Python and is not exercised here; the model keeps the accumulator. -/
def pyMax : PyVal → PyVal → PyVal
  | .num a, .num b => if a < b then .num b else .num a
  | .str a, .str b => if listStrLt a.data b.data then .str b else .str a
  | a, _ => a

/-- `Series.max()` with NaN skipped (pandas default); all-NaN or empty
gives NaN. -/
def seriesMax (vs : List PyVal) : Option PyVal :=
  match vs.filter (fun v => !(v == PyVal.none)) with
  | [] => Option.none
  | v :: rest => some (rest.foldl pyMax v)

/-- groupby aggregation `"first"`: first non-null value in group order. -/
def aggFirst (vs : List (Option String)) : Option String := (vs.filterMap id).head?

/-- `Series.nunique()`: distinct non-null count. -/
def nunique (vs : List (Option String)) : ℕ := (pdUnique (vs.filterMap id)).length

/-- Source lines 41–44: rows with non-null `player_key` and
`team_committed`. -/
def value_df (rows : List DealRow) : List DealRow :=
  rows.filter (fun r => r.player_key.isSome && r.team_committed.isSome)

/-- Rows that form groups: pandas `groupby` silently drops rows with a
null in any grouping key (its `dropna=True` default), and line 54
groups by `player_name` as well. -/
def dedupe_groups (rows : List DealRow) : List DealRow :=
  (value_df rows).filter (fun r => r.player_name.isSome)

/-- Grouping key of source line 54. -/
def dealKey3 (r : DealRow) : Option String × Option String × Option String :=
  (r.player_key, r.player_name, r.team_committed)

/-- Source lines 51–70: the deduplicated athlete fact table (before
the final descending sort of lines 77–81, on which no claim depends).
`deal_value` is the max of the raw `deal_amount` column — the script
never applies any money parser. -/
def athlete_fact (rows : List DealRow) : List AthleteFact :=
  let v := dedupe_groups rows
  (pdUnique (v.map dealKey3)).map (fun k =>
    let g := v.filter (fun r => dealKey3 r == k)
    { player_key := k.1
      player_name := k.2.1
      team_committed := k.2.2
      deal_value := seriesMax (g.map (fun r => r.deal_amount))
      deal_count := nunique (g.map (fun r => r.deal_key))
      sport_name := aggFirst (g.map (fun r => r.sport_name))
      player_state := aggFirst (g.map (fun r => r.player_state))
      player_position := aggFirst (g.map (fun r => r.player_position))
      player_class_year := aggFirst (g.map (fun r => r.player_class_year)) })

/-! ## Aggregator — school-level summary
(`src/dashboard.py`, lines 406–452) -/

/-- Row of `on3_nil_athlete_values.csv` as the dashboard reads it
(grouping keys of the deduplicator are non-null by construction). -/
structure AthleteValueRow where
  team_committed : String
  player_key : String
  deal_value : Option ℚ
  sport_name : Option String
deriving DecidableEq

/-- Max of a nonempty rational list (`[]` is unreachable: every group
has at least one member). -/
def qListMax : List ℚ → ℚ
  | [] => 0
  | v :: vs => vs.foldl max v

/-- Source lines 406–416: `school_money` — rows with non-null
`deal_value`, regrouped to one defensive max per
(`team_committed`, `player_key`). -/
def school_money (rows : List AthleteValueRow) : List ((String × String) × ℚ) :=
  let disclosed := rows.filter (fun r => r.deal_value.isSome)
  (pdUnique (disclosed.map (fun r => (r.team_committed, r.player_key)))).map (fun k =>
    (k, qListMax ((disclosed.filter
      (fun r => (r.team_committed, r.player_key) == k)).filterMap (fun r => r.deal_value))))

/-- Insertion into a sorted rational list. -/
def insertLe (x : ℚ) : List ℚ → List ℚ
  | [] => [x]
  | y :: ys => if x ≤ y then x :: y :: ys else y :: insertLe x ys

/-- Insertion sort (ascending) for the median. -/
def sortQ (l : List ℚ) : List ℚ := l.foldr insertLe []

/-- pandas `median` of a nonempty list (empty is not exercised). -/
def medianQ (l : List ℚ) : ℚ :=
  let s := sortQ l
  if s.length % 2 = 1 then s.getD (s.length / 2) 0
  else (s.getD (s.length / 2 - 1) 0 + s.getD (s.length / 2) 0) / 2

/-- Per-school deal values inside `school_money`. -/
def school_vals (sm : List ((String × String) × ℚ)) (t : String) : List ℚ :=
  (sm.filter (fun x => x.1.1 == t)).map (fun x => x.2)

/-- Distinct schools of `school_money`, first-appearance order. -/
def school_teams (sm : List ((String × String) × ℚ)) : List String :=
  pdUnique (sm.map (fun x => x.1.1))

/-- Source line 437: `total_value = school_table["total_value"].sum()`. -/
def grand_value (sm : List ((String × String) × ℚ)) : ℚ :=
  ((school_teams sm).map (fun t => (school_vals sm t).sum)).sum

/-- Source line 438: `total_deals = school_table["deal_count"].sum()`. -/
def grand_deals (sm : List ((String × String) × ℚ)) : ℕ :=
  ((school_teams sm).map (fun t => (school_vals sm t).length)).sum

/-- Row of the school-level summary table. -/
structure SchoolRow where
  team_committed : String
  total_value : ℚ
  avg_value : ℚ
  median_value : ℚ
  deal_count : ℕ
  athletes : ℕ
  pct_value : ℚ
  pct_deals : ℚ
deriving DecidableEq

/-- Source lines 422–441: the school-level table with its two
market-share columns `pct_value` (`% of NIL Value`) and `pct_deals`
(`% of Deals`), before the descending sort by `total_value` (which no
claim depends on). -/
def school_table (sm : List ((String × String) × ℚ)) : List SchoolRow :=
  (school_teams sm).map (fun t =>
    { team_committed := t
      total_value := (school_vals sm t).sum
      avg_value := (school_vals sm t).sum / ((school_vals sm t).length : ℚ)
      median_value := medianQ (school_vals sm t)
      deal_count := (school_vals sm t).length
      athletes := (pdUnique ((sm.filter (fun x => x.1.1 == t)).map (fun x => x.1.2))).length
      pct_value := (school_vals sm t).sum / grand_value sm
      pct_deals := ((school_vals sm t).length : ℚ) / (grand_deals sm : ℚ) })

/-- Source lines 418–441: the aggregator's explicit empty branch —
`if school_money.empty: st.warning("No reported NIL values available.")`
(`Option.none`), otherwise the summary table. -/
def school_summary (rows : List AthleteValueRow) : Option (List SchoolRow) :=
  if school_money rows = [] then Option.none
  else some (school_table (school_money rows))

/-! ## Claims about the athlete deduplicator -/

/-- C3 failing input: three raw deals for player `P1` at
"Texas Longhorns" with amounts `"$1M"`, `"$1.2M"`, `"$1M"` and deal
keys `K1, K1, K2`. -/
def c3rows : List DealRow :=
  [ ⟨some "K1", some "2024-01-01", .str "$1M", some "P1", some "P1 Name", some "Texas Longhorns",
      some "Football", some "TX", some "QB", some "2025"⟩,
    ⟨some "K1", some "2024-01-02", .str "$1.2M", some "P1", some "P1 Name", some "Texas Longhorns",
      some "Football", some "TX", some "QB", some "2025"⟩,
    ⟨some "K2", some "2024-01-03", .str "$1M", some "P1", some "P1 Name", some "Texas Longhorns",
      some "Football", some "TX", some "QB", some "2025"⟩ ]

/-- C4 counterexample input: one athlete key `P` at one school `T`
reported under two different `player_name` spellings. -/
def c4rows : List DealRow :=
  [ ⟨some "K1", some "2024-01-01", .str "$1M", some "P", some "Name A", some "T",
      some "Football", some "TX", some "QB", some "2025"⟩,
    ⟨some "K2", some "2024-01-02", .str "$2M", some "P", some "Name B", some "T",
      some "Football", some "TX", some "QB", some "2025"⟩ ]

/-- C1 counterexample input: a single athlete whose disclosed deal
value is 0 — `deal_value` is non-null, so the summary is non-empty. -/
def c1rows : List AthleteValueRow := [⟨"a", "p", some 0, Option.none⟩]

/-- C1 witness input: two schools with disclosed values 100 and 300. -/
def c1wrows : List AthleteValueRow :=
  [⟨"a", "p", some 100, Option.none⟩, ⟨"b", "q", some 300, Option.none⟩]

/-- C2 witness input: one athlete row with undisclosed value. -/
def c2rows : List AthleteValueRow := [⟨"a", "p", Option.none, Option.none⟩]

/-- C5 witness scorer: exact match scores 100, everything else 0. -/
def c5scorer : String → String → ℚ := fun a b => if a = b then 100 else 0

/-- C5 witness registry: one institution. -/
def c5insts : List IpedsInst := [⟨"Texas University", 7⟩]

/-- C5 witness deals: one deal whose team cleans to "texas". -/
def c5rows : List NilDeal := [⟨some "K1", .num 0, some "Texas"⟩]

/-- C6 witness scorer, behaving as rapidfuzz `fuzz.WRatio` does on the
relevant pair: `WRatio("nan", "shenandoah") = 90` (the partial ratio is
100 since "nan" is a substring of "shenandoah", scaled by 0.9 for the
length gap), and ≥ 85 is accepted. -/
def c6scorer : String → String → ℚ :=
  fun a b => if a = "nan" ∧ b = "shenandoah" then 90 else 0

/-- C6 registry: Shenandoah University (IPEDS unitid 231712). -/
def c6insts : List IpedsInst := [⟨"Shenandoah University", 231712⟩]

/-- C6 failing input: a single deal whose `team_committed` is null. -/
def c6rows : List NilDeal := [⟨some "K9", PyVal.none, Option.none⟩]

/-! ## Infrastructure for the idempotence analysis of `clean_name`

Character-level bridging lemmas reducing the `Bool` character classes
to arithmetic on `Char.toNat`, and the token view of a string (maximal
runs of word characters), used to settle claim C9. -/

/-- Characters on which the regex `\w` class and the `[a-z0-9 ]` keep
class agree up to the space character: ASCII, not `_`, not an upper
case letter.  `clean_name` lowercases first, so every character of an
underscore-free ASCII input is good from then on. -/
def goodChar (c : Char) : Bool := decide (c.toNat ≤ 127) && !(c == '_') && !c.isUpper

/-- Maximal runs of word characters of a string — the `\b`-delimited
words the `re.sub` rules can see. -/
def toks : List Char → List (List Char)
  | [] => []
  | c :: rest =>
    if wordChar c then (c :: rest.takeWhile wordChar) :: toks (rest.dropWhile wordChar)
    else toks rest
termination_by l => l.length
decreasing_by
  · simp only [List.length_cons]
    exact Nat.lt_succ_of_le (List.dropWhile_sublist wordChar).length_le
  · simp

/-- The list starts with a non-word character (or is empty): the state
in which a `\b` precedes the head. -/
def headNonWord : List Char → Prop
  | [] => True
  | c :: _ => wordChar c = false

/-- Patterns whose first character is a word character (true of every
`clean_name` rule): a match can only start where `prev` is non-word. -/
def patsHeadWord (pats : List (List Char)) : Prop :=
  ∀ p ∈ pats, ∃ c q, p = c :: q ∧ wordChar c = true

/-- Word-delimited single-word patterns: nonempty, all word characters. -/
def patsWord (pats : List (List Char)) : Prop :=
  ∀ p ∈ pats, p ≠ [] ∧ ∀ c ∈ p, wordChar c = true

/-- Tokens joined with single spaces — the normal form `clean_name`
produces. -/
def joinToks : List (List Char) → List Char
  | [] => []
  | t :: ts => t ++ (if ts.isEmpty then [] else ' ' :: joinToks ts)

/-- Every character of the list is good. -/
def goodList (l : List Char) : Prop := ∀ c ∈ l, goodChar c = true

/-- Right whitespace strip; `pyStrip l = rstripWs (l.dropWhile pyWs)`. -/
def rstripWs (l : List Char) : List Char := (l.reverse.dropWhile pyWs).reverse

/-- The combined token predicate of the six word-deletion rules of
`clean_name` (a token survives iff it is none of the deleted words). -/
def keepTok (t : List Char) : Bool :=
  decide (t ∉ ["football".data]) && (decide (t ∉ ["fb".data, "ncaa".data]) &&
    (decide (t ∉ ["men".data, "women".data]) && (decide (t ∉ ["the".data]) &&
      (decide (t ∉ ["college".data]) && decide (t ∉ ["university".data])))))

theorem pdUnique_sub {α : Type _} [DecidableEq α] :
    ∀ (l : List α) (a : α), a ∈ pdUnique l → a ∈ l := by
  intro l
  induction l with
  | nil => intro a h; exact absurd h (List.not_mem_nil a)
  | cons x xs ih =>
    intro a h
    rcases List.mem_cons.mp h with h | h
    · exact h ▸ List.mem_cons_self x xs
    · exact List.mem_cons_of_mem x (ih a (List.mem_of_mem_filter h))

theorem mem_pdUnique {α : Type _} [DecidableEq α] :
    ∀ (l : List α) (a : α), a ∈ l → a ∈ pdUnique l := by
  intro l
  induction l with
  | nil => intro a h; exact absurd h (List.not_mem_nil a)
  | cons x xs ih =>
    intro a h
    by_cases hax : a = x
    · exact hax ▸ List.mem_cons_self x (((pdUnique xs)).filter (fun y => decide (y ≠ x)))
    · rcases List.mem_cons.mp h with h | h
      · exact absurd h hax
      · exact List.mem_cons_of_mem x
          (List.mem_filter.mpr ⟨ih a h, by simpa using hax⟩)

theorem pdUnique_nodup {α : Type _} [DecidableEq α] :
    ∀ l : List α, (pdUnique l).Nodup := by
  intro l
  induction l with
  | nil => exact List.nodup_nil
  | cons x xs ih =>
    refine List.nodup_cons.mpr ⟨?_, List.Nodup.filter _ ih⟩
    intro hmem
    have := List.of_mem_filter hmem
    simp at this

/-! Helper lemmas decomposing `parse_money` by control path. -/

theorem parse_money_sentinel (raw : String)
    (h0 : (money_s0 raw).isEmpty = false)
    (hs : money_key raw ∈ money_sentinels) :
    parse_money (.str raw) = .ok 0 := by
  simp [parse_money, h0, hs]

theorem parse_money_suffix_m (raw : String) (f : FloatLit)
    (h0 : (money_s0 raw).isEmpty = false)
    (hs : money_key raw ∉ money_sentinels)
    (hm : (money_key raw).getLast? = some 'm')
    (hp : pyFloatParse (pyStrip (money_key raw).dropLast) = some f) :
    parse_money (.str raw) = .ok (floatLitVal f * 1000000) := by
  simp [parse_money, h0, hs, hm, hp]

theorem parse_money_suffix_m_fail (raw : String)
    (h0 : (money_s0 raw).isEmpty = false)
    (hs : money_key raw ∉ money_sentinels)
    (hm : (money_key raw).getLast? = some 'm')
    (hp : pyFloatParse (pyStrip (money_key raw).dropLast) = Option.none) :
    parse_money (.str raw) = .ok 0 := by
  simp [parse_money, h0, hs, hm, hp]

theorem parse_money_suffix_k (raw : String) (f : FloatLit)
    (h0 : (money_s0 raw).isEmpty = false)
    (hs : money_key raw ∉ money_sentinels)
    (hm : (money_key raw).getLast? ≠ some 'm')
    (hk : (money_key raw).getLast? = some 'k')
    (hp : pyFloatParse (pyStrip (money_key raw).dropLast) = some f) :
    parse_money (.str raw) = .ok (floatLitVal f * 1000) := by
  simp [parse_money, h0, hs, hm, hk, hp]

theorem parse_money_suffix_k_fail (raw : String)
    (h0 : (money_s0 raw).isEmpty = false)
    (hs : money_key raw ∉ money_sentinels)
    (hm : (money_key raw).getLast? ≠ some 'm')
    (hk : (money_key raw).getLast? = some 'k')
    (hp : pyFloatParse (pyStrip (money_key raw).dropLast) = Option.none) :
    parse_money (.str raw) = .ok 0 := by
  simp [parse_money, h0, hs, hm, hk, hp]

theorem parse_money_plain (raw : String) (f : FloatLit)
    (h0 : (money_s0 raw).isEmpty = false)
    (hs : money_key raw ∉ money_sentinels)
    (hm : (money_key raw).getLast? ≠ some 'm')
    (hk : (money_key raw).getLast? ≠ some 'k')
    (hp : pyFloatParse (pyStrip (money_key raw)) = some f) :
    parse_money (.str raw) = .ok (floatLitVal f) := by
  simp [parse_money, h0, hs, hm, hk, hp]

theorem parse_money_plain_fail (raw : String)
    (h0 : (money_s0 raw).isEmpty = false)
    (hs : money_key raw ∉ money_sentinels)
    (hm : (money_key raw).getLast? ≠ some 'm')
    (hk : (money_key raw).getLast? ≠ some 'k')
    (hp : pyFloatParse (pyStrip (money_key raw)) = Option.none) :
    parse_money (.str raw) = .ok 0 := by
  simp [parse_money, h0, hs, hm, hk, hp]

/-- Every control path of `parse_money` returns `Except.ok`: no
exception escapes (every `float` call of the source sits inside a
`try/except ValueError`). -/
theorem parse_money_total (v : PyVal) : ∃ q : ℚ, parse_money v = .ok q := by
  match v with
  | .none => exact ⟨0, rfl⟩
  | .num q => exact ⟨q, rfl⟩
  | .str raw =>
    by_cases h0 : (money_s0 raw).isEmpty
    · exact ⟨0, by simp [parse_money, h0]⟩
    · by_cases hs : money_key raw ∈ money_sentinels
      · exact ⟨0, by simp [parse_money, h0, hs]⟩
      · by_cases hm : (money_key raw).getLast? = some 'm'
        · cases hp : pyFloatParse (pyStrip (money_key raw).dropLast) with
          | none => exact ⟨0, by simp [parse_money, h0, hs, hm, hp]⟩
          | some f => exact ⟨floatLitVal f * 1000000, by simp [parse_money, h0, hs, hm, hp]⟩
        · by_cases hk : (money_key raw).getLast? = some 'k'
          · cases hp : pyFloatParse (pyStrip (money_key raw).dropLast) with
            | none => exact ⟨0, by simp [parse_money, h0, hs, hm, hk, hp]⟩
            | some f => exact ⟨floatLitVal f * 1000, by simp [parse_money, h0, hs, hm, hk, hp]⟩
          · cases hp : pyFloatParse (pyStrip (money_key raw)) with
            | none => exact ⟨0, by simp [parse_money, h0, hs, hm, hk, hp]⟩
            | some f => exact ⟨floatLitVal f, by simp [parse_money, h0, hs, hm, hk, hp]⟩

/-! Concrete evaluations of `parse_money` used by claim C7. -/

theorem pm_eval_50k : parse_money (.str "$50K") = .ok 50000 := by
  have h := parse_money_suffix_k "$50K" ⟨false, 50, 0, 0, 0⟩
    (by decide) (by decide) (by decide) (by decide) (by decide)
  rw [h]
  norm_num [floatLitVal]

theorem pm_eval_2m : parse_money (.str "$2M") = .ok 2000000 := by
  have h := parse_money_suffix_m "$2M" ⟨false, 2, 0, 0, 0⟩
    (by decide) (by decide) (by decide) (by decide)
  rw [h]
  norm_num [floatLitVal]

theorem pm_eval_grouped : parse_money (.str "$1,200,000") = .ok 1200000 := by
  have h := parse_money_plain "$1,200,000" ⟨false, 1200000, 0, 0, 0⟩
    (by decide) (by decide) (by decide) (by decide) (by decide)
  rw [h]
  norm_num [floatLitVal]

theorem pm_eval_undisclosed : parse_money (.str "Undisclosed") = .ok 0 :=
  parse_money_sentinel "Undisclosed" (by decide) (by decide)

/-- C7: the money normalizer applies its rules in the source's order —
null → 0.0, numeric → direct cast, text → strip `$`/`,` and lowercase,
sentinel → 0.0, `m` suffix → ×1,000,000, `k` suffix → ×1,000, else
plain float — so `parse_money "$50K" = 50000.0`,
`parse_money "$2M" = 2000000.0`, `parse_money "$1,200,000" = 1200000.0`,
`parse_money "Undisclosed" = 0.0`, `parse_money None = 0.0`, and
`parse_money 1500 = 1500.0`. -/
theorem c7_parse_money_rules :
    parse_money PyVal.none = .ok 0 ∧
    parse_money (.num 1500) = .ok 1500 ∧
    parse_money (.str "$50K") = .ok 50000 ∧
    parse_money (.str "$2M") = .ok 2000000 ∧
    parse_money (.str "$1,200,000") = .ok 1200000 ∧
    parse_money (.str "Undisclosed") = .ok 0 :=
  ⟨rfl, rfl, pm_eval_50k, pm_eval_2m, pm_eval_grouped, pm_eval_undisclosed⟩

/-- C8 counterexample: the normalizer's output is not always
non-negative — a numeric input `-100` is cast directly to `-100.0`,
which is negative.  (Likewise `"-5k"` would give `-5000.0`.) -/
theorem c8_nonneg_counterexample :
    parse_money (.num (-100)) = .ok (-100) ∧ ((-100 : ℚ) < 0) :=
  ⟨rfl, by norm_num⟩

/-- C8 (amended): for every input scalar — null, numeric or arbitrary
text — the money normalizer returns a float without raising, and any
parse failure at any stage yields `0.0`; the non-negativity part of the
original claim is dropped (negative numeric or text inputs pass
through with their sign). -/
theorem c8_never_raises_amended :
    (∀ v : PyVal, ∃ q : ℚ, parse_money v = .ok q) ∧
    (∀ raw : String, (money_key raw).getLast? = some 'm' →
      pyFloatParse (pyStrip (money_key raw).dropLast) = Option.none →
      parse_money (.str raw) = .ok 0) ∧
    (∀ raw : String, (money_key raw).getLast? ≠ some 'm' →
      (money_key raw).getLast? = some 'k' →
      pyFloatParse (pyStrip (money_key raw).dropLast) = Option.none →
      parse_money (.str raw) = .ok 0) ∧
    (∀ raw : String, (money_key raw).getLast? ≠ some 'm' →
      (money_key raw).getLast? ≠ some 'k' →
      money_key raw ∉ money_sentinels →
      pyFloatParse (pyStrip (money_key raw)) = Option.none →
      parse_money (.str raw) = .ok 0) := by
  refine ⟨parse_money_total, ?_, ?_, ?_⟩
  · intro raw hm hp
    by_cases h0 : (money_s0 raw).isEmpty
    · simp [parse_money, h0]
    · by_cases hs : money_key raw ∈ money_sentinels
      · exact parse_money_sentinel raw (by simpa using h0) hs
      · exact parse_money_suffix_m_fail raw (by simpa using h0) hs hm hp
  · intro raw hm hk hp
    by_cases h0 : (money_s0 raw).isEmpty
    · simp [parse_money, h0]
    · by_cases hs : money_key raw ∈ money_sentinels
      · exact parse_money_sentinel raw (by simpa using h0) hs
      · exact parse_money_suffix_k_fail raw (by simpa using h0) hs hm hk hp
  · intro raw hm hk hs hp
    by_cases h0 : (money_s0 raw).isEmpty
    · simp [parse_money, h0]
    · exact parse_money_plain_fail raw (by simpa using h0) hs hm hk hp

/-- C8 witness: the amended theorem applied to the unparseable text
`"abc"`, whose parse failure yields `0.0`. -/
theorem c8_never_raises_witness : parse_money (.str "abc") = .ok 0 :=
  c8_never_raises_amended.2.2.2 "abc" (by decide) (by decide) (by decide) (by decide)

/-- C3: on the spec's end-to-end scenario the deduplicator emits one
row with `deal_count = 2` as claimed, but `deal_value` is the raw
string `"$1M"` — the lexicographic maximum of the unparsed
`deal_amount` strings (`'M' > '.'`), not the numeric `1,200,000` the
claim requires: `dedupe_nil_deals.py` never applies any money parser,
and its own sanity check (line 96, `f"${...sum():,.0f}"`) would raise
on such string values. -/
theorem c3_scenario_code_bug :
    athlete_fact c3rows =
      [⟨some "P1", some "P1 Name", some "Texas Longhorns", some (.str "$1M"), 2,
        some "Football", some "TX", some "QB", some "2025"⟩] ∧
    (PyVal.str "$1M" ≠ PyVal.num 1200000) :=
  ⟨by decide, by decide⟩

/-- C4 counterexample: the grouping key of line 54 includes
`player_name`, so two rows sharing (`player_key`, `team_committed`)
but spelling the name differently produce two distinct output rows
with the same (`player_key`, `team_committed`) pair, refuting the
claimed at-most-one-row-per-pair invariant. -/
theorem c4_pair_counterexample :
    (athlete_fact c4rows).length = 2 ∧
    ∃ a b, athlete_fact c4rows = [a, b] ∧
      a.player_key = b.player_key ∧ a.team_committed = b.team_committed ∧ a ≠ b :=
  ⟨by decide,
   ⟨some "P", some "Name A", some "T", some (.str "$1M"), 1,
      some "Football", some "TX", some "QB", some "2025"⟩,
   ⟨some "P", some "Name B", some "T", some (.str "$2M"), 1,
      some "Football", some "TX", some "QB", some "2025"⟩,
   by decide, by decide, by decide, by decide⟩

/-- C4 (amended): the athlete fact table contains at most one row per
(`player_key`, `player_name`, `team_committed`) triple — the actual
grouping key — rather than per (`player_key`, `team_committed`) pair. -/
theorem c4_unique_triple_amended (rows : List DealRow) :
    (athlete_fact rows).Pairwise (fun a b =>
      (a.player_key, a.player_name, a.team_committed) ≠
      (b.player_key, b.player_name, b.team_committed)) := by
  rw [athlete_fact, List.pairwise_map]
  have h := pdUnique_nodup ((dedupe_groups rows).map dealKey3)
  refine h.imp ?_
  intro a b hne hEq
  exact hne (by
    have ha : (a.1, a.2.1, a.2.2) = (b.1, b.2.1, b.2.2) := hEq
    obtain ⟨x1, x2, x3⟩ := a
    obtain ⟨y1, y2, y3⟩ := b
    simpa using ha)

/-- C10: a raw row with non-null `player_key` and `team_committed` but
null `player_name` is silently excluded by the grouping (pandas drops
null-keyed rows): the fact table is unchanged when such rows are
removed from the input, and every emitted fact carries a non-null
`player_name`. -/
theorem c10_null_name_excluded (rows : List DealRow) :
    athlete_fact rows = athlete_fact (rows.filter (fun r => r.player_name.isSome)) ∧
    ∀ a ∈ athlete_fact rows, a.player_name.isSome := by
  constructor
  · have hg : dedupe_groups rows = dedupe_groups (rows.filter (fun r => r.player_name.isSome)) := by
      rw [dedupe_groups, dedupe_groups, value_df, value_df]
      rw [List.filter_filter, List.filter_filter, List.filter_filter]
      apply List.filter_congr
      intro r _
      cases hn : r.player_name <;> cases hk : r.player_key <;> cases ht : r.team_committed <;>
        simp [hn, hk, ht]
    rw [athlete_fact, athlete_fact, hg]
  · intro a ha
    rw [athlete_fact] at ha
    obtain ⟨k, hk, hFk⟩ := List.mem_map.mp ha
    have hk2 : k ∈ (dedupe_groups rows).map dealKey3 := pdUnique_sub _ _ hk
    obtain ⟨r, hr, hrk⟩ := List.mem_map.mp hk2
    have hrn : r.player_name.isSome := by
      have := List.of_mem_filter hr
      simpa using this
    have : a.player_name = k.2.1 := by rw [← hFk]
    rw [this, ← hrk]
    exact hrn

/-! ## Claims about the aggregator's share columns -/

theorem sum_map_div (l : List ℚ) (c : ℚ) :
    (l.map (fun x => x / c)).sum = l.sum / c := by
  induction l with
  | nil => simp
  | cons x xs ih => simp [ih, add_div]

theorem school_vals_ne_nil (sm : List ((String × String) × ℚ)) (t : String)
    (ht : t ∈ school_teams sm) : school_vals sm t ≠ [] := by
  obtain ⟨x, hx, hfx⟩ := List.mem_map.mp (pdUnique_sub _ _ ht)
  have hmem : x ∈ sm.filter (fun y => y.1.1 == t) :=
    List.mem_filter.mpr ⟨hx, by simp [hfx]⟩
  rw [school_vals]
  intro hnil
  rw [List.map_eq_nil_iff] at hnil
  rw [hnil] at hmem
  exact List.not_mem_nil x hmem

theorem grand_deals_pos (sm : List ((String × String) × ℚ)) (h : sm ≠ []) :
    0 < grand_deals sm := by
  obtain ⟨x, xs, rfl⟩ := List.exists_cons_of_ne_nil h
  have ht : x.1.1 ∈ school_teams (x :: xs) :=
    mem_pdUnique _ _ (List.mem_map.mpr ⟨x, List.mem_cons_self x xs, rfl⟩)
  have hlen : 0 < (school_vals (x :: xs) x.1.1).length :=
    List.length_pos.mpr (school_vals_ne_nil _ _ ht)
  have hmem : (school_vals (x :: xs) x.1.1).length ∈
      (school_teams (x :: xs)).map (fun t => (school_vals (x :: xs) t).length) :=
    List.mem_map.mpr ⟨x.1.1, ht, rfl⟩
  calc 0 < (school_vals (x :: xs) x.1.1).length := hlen
    _ ≤ grand_deals (x :: xs) := List.single_le_sum (fun _ _ => Nat.zero_le _) _ hmem

theorem pct_deals_sum (sm : List ((String × String) × ℚ)) (h : sm ≠ []) :
    ((school_table sm).map (fun r => r.pct_deals)).sum = 1 := by
  have hD : ((grand_deals sm : ℚ)) ≠ 0 :=
    Nat.cast_ne_zero.mpr (Nat.pos_iff_ne_zero.mp (grand_deals_pos sm h))
  have hmap : (school_table sm).map (fun r => r.pct_deals)
      = ((school_teams sm).map (fun t => ((school_vals sm t).length : ℚ))).map
          (fun x => x / (grand_deals sm : ℚ)) := by
    rw [school_table, List.map_map, List.map_map]
    rfl
  rw [hmap, sum_map_div]
  have hsum : ((school_teams sm).map (fun t => ((school_vals sm t).length : ℚ))).sum
      = (grand_deals sm : ℚ) := by
    rw [grand_deals, Nat.cast_list_sum, List.map_map]
    rfl
  rw [hsum, div_self hD]

theorem pct_value_sum (sm : List ((String × String) × ℚ)) (hv : grand_value sm ≠ 0) :
    ((school_table sm).map (fun r => r.pct_value)).sum = 1 := by
  have hmap : (school_table sm).map (fun r => r.pct_value)
      = ((school_teams sm).map (fun t => (school_vals sm t).sum)).map
          (fun x => x / grand_value sm) := by
    rw [school_table, List.map_map, List.map_map]
    rfl
  rw [hmap, sum_map_div]
  rw [grand_value] at hv ⊢
  rw [div_self hv]

/-- C1 (amended): for every non-empty school summary the `% of Deals`
column sums to exactly 1, and the `% of NIL Value` column sums to
exactly 1 provided the grand total of disclosed value is nonzero (the
original claim fails when every disclosed value is 0: the shares are
then 0/0 — NaN in pandas — and no longer sum to 1). -/
theorem c1_share_sums_amended (rows : List AthleteValueRow)
    (h : school_money rows ≠ []) :
    ((school_table (school_money rows)).map (fun r => r.pct_deals)).sum = 1 ∧
    (grand_value (school_money rows) ≠ 0 →
      ((school_table (school_money rows)).map (fun r => r.pct_value)).sum = 1) :=
  ⟨pct_deals_sum _ h, fun hv => pct_value_sum _ hv⟩

/-- C1 counterexample: with one disclosed value of 0 the summary is
non-empty but the grand total is 0, so `% of NIL Value` is `0/0` per
row (NaN in pandas, 0 in the rational model) and its column sum is 0,
not within `1e-9` of 1. -/
theorem c1_share_sums_counterexample :
    school_money c1rows ≠ [] ∧
    ((school_table (school_money c1rows)).map (fun r => r.pct_value)).sum = 0 ∧
    ¬(|((school_table (school_money c1rows)).map (fun r => r.pct_value)).sum - 1|
        ≤ 1 / 1000000000) := by
  have h : school_money c1rows = [(("a", "p"), (0 : ℚ))] := by decide
  refine ⟨by decide, ?_, ?_⟩
  · rw [h]
    norm_num [school_table, school_teams, school_vals, pdUnique, grand_value]
  · rw [h]
    norm_num [school_table, school_teams, school_vals, pdUnique, grand_value]

/-- C1 witness: the amended share invariants instantiated on a
two-school summary. -/
theorem c1_share_sums_witness :
    ((school_table (school_money c1wrows)).map (fun r => r.pct_deals)).sum = 1 ∧
    ((school_table (school_money c1wrows)).map (fun r => r.pct_value)).sum = 1 := by
  have h1 : school_money c1wrows ≠ [] := by decide
  have h2 : grand_value (school_money c1wrows) ≠ 0 := by
    have ha : school_teams (school_money c1wrows) = ["a", "b"] := by decide
    have hva : school_vals (school_money c1wrows) "a" = [100] := by decide
    have hvb : school_vals (school_money c1wrows) "b" = [300] := by decide
    rw [grand_value, ha, List.map_cons, List.map_cons, List.map_nil, hva, hvb]
    norm_num
  exact ⟨(c1_share_sums_amended c1wrows h1).1, (c1_share_sums_amended c1wrows h1).2 h2⟩

/-- C2: if the filtered view has no row with a disclosed (non-null)
`deal_value`, the aggregator takes the explicit `school_money.empty`
branch and reports the no-data marker — no division and no percentage
fields are ever produced. -/
theorem c2_empty_no_data (rows : List AthleteValueRow)
    (h : ∀ r ∈ rows, r.deal_value = Option.none) :
    school_summary rows = Option.none := by
  have hf : rows.filter (fun r => r.deal_value.isSome) = [] := by
    rw [List.filter_eq_nil_iff]
    intro r hr
    simp [h r hr]
  have hsm : school_money rows = [] := by
    simp [school_money, hf, pdUnique]
  simp [school_summary, hsm]

/-- C2 witness: the empty branch taken on a concrete all-undisclosed
view. -/
theorem c2_empty_no_data_witness : school_summary c2rows = Option.none :=
  c2_empty_no_data c2rows (by decide)

/-! ## Claims about the entity resolver -/

theorem extractOneAux_spec (scorer : String → String → ℚ) (q : String) :
    ∀ (ns : List String) (i : ℕ) (b : String × ℚ × ℕ),
      (extractOneAux scorer q ns i b = b ∨
        ∃ j, j < ns.length ∧ ns[j]? = some (extractOneAux scorer q ns i b).1 ∧
          (extractOneAux scorer q ns i b).2.2 = i + j ∧
          (extractOneAux scorer q ns i b).2.1 = scorer q (extractOneAux scorer q ns i b).1) ∧
      b.2.1 ≤ (extractOneAux scorer q ns i b).2.1 ∧
      (∀ n ∈ ns, scorer q n ≤ (extractOneAux scorer q ns i b).2.1) := by
  intro ns
  induction ns with
  | nil =>
    intro i b
    refine ⟨Or.inl rfl, le_refl _, ?_⟩
    intro n hn
    exact absurd hn (List.not_mem_nil n)
  | cons n ns ih =>
    intro i b
    by_cases hlt : b.2.1 < scorer q n
    · have hb' : extractOneAux scorer q (n :: ns) i b
          = extractOneAux scorer q ns (i + 1) (n, scorer q n, i) := by
        rw [extractOneAux, if_pos hlt]
      obtain ⟨h1, h2, h3⟩ := ih (i + 1) (n, scorer q n, i)
      refine ⟨?_, ?_, ?_⟩
      · rcases h1 with h1 | ⟨j, hj, hg, hi, hs⟩
        · refine Or.inr ⟨0, by simp, ?_, ?_, ?_⟩ <;> rw [hb', h1] <;> simp
        · refine Or.inr ⟨j + 1, by simpa using hj, ?_, ?_, ?_⟩ <;> rw [hb']
          · simpa using hg
          · rw [hi]; omega
          · exact hs
      · rw [hb']; exact le_of_lt (lt_of_lt_of_le hlt h2)
      · intro x hx
        rcases List.mem_cons.mp hx with hx | hx
        · rw [hb', hx]; exact h2
        · rw [hb']; exact h3 x hx
    · have hb' : extractOneAux scorer q (n :: ns) i b
          = extractOneAux scorer q ns (i + 1) b := by
        rw [extractOneAux, if_neg hlt]
      obtain ⟨h1, h2, h3⟩ := ih (i + 1) b
      refine ⟨?_, ?_, ?_⟩
      · rcases h1 with h1 | ⟨j, hj, hg, hi, hs⟩
        · exact Or.inl (hb' ▸ h1)
        · refine Or.inr ⟨j + 1, by simpa using hj, ?_, ?_, ?_⟩ <;> rw [hb']
          · simpa using hg
          · rw [hi]; omega
          · exact hs
      · rw [hb']; exact h2
      · intro x hx
        rcases List.mem_cons.mp hx with hx | hx
        · rw [hb', hx]
          exact le_trans (le_of_not_lt hlt) h2
        · rw [hb']; exact h3 x hx

/-- rapidfuzz `extractOne` on a nonempty candidate list returns a
realized best: a choice at a valid index whose score is its own
similarity and is ≥ the similarity of every candidate. -/
theorem extractOne_spec (scorer : String → String → ℚ) (q : String)
    (names : List String) (h : names ≠ []) :
    ∃ m sc idx, extractOne scorer q names = some (m, sc, idx) ∧
      idx < names.length ∧ names[idx]? = some m ∧ sc = scorer q m ∧
      ∀ n ∈ names, scorer q n ≤ sc := by
  obtain ⟨n, ns, rfl⟩ := List.exists_cons_of_ne_nil h
  obtain ⟨h1, h2, h3⟩ := extractOneAux_spec scorer q ns 1 (n, scorer q n, 0)
  set r := extractOneAux scorer q ns 1 (n, scorer q n, 0) with hr
  refine ⟨r.1, r.2.1, r.2.2, by rw [extractOne], ?_, ?_, ?_, ?_⟩
  · rcases h1 with h1 | ⟨j, hj, _, hi, _⟩
    · rw [h1]; simp
    · rw [hi, List.length_cons]; omega
  · rcases h1 with h1 | ⟨j, hj, hg, hi, _⟩
    · rw [h1]; simp
    · have h1j : 1 + j = j + 1 := by omega
      rw [hi, h1j, List.getElem?_cons_succ]
      exact hg
  · rcases h1 with h1 | ⟨_, _, _, _, hs⟩
    · rw [h1]
    · exact hs
  · intro x hx
    rcases List.mem_cons.mp hx with hx | hx
    · rw [hx]; exact h2
    · exact h3 x hx

theorem mapping_step_team (scorer : String → String → ℚ) (insts : List IpedsInst)
    (t : String) (r : MapRecord) (h : mapping_step scorer insts t = some r) :
    r.team_name_clean = t := by
  rw [mapping_step] at h
  split at h
  · exact absurd h (by simp)
  · split at h
    · exact absurd h (by simp)
    · split at h
      · split at h
        · have := Option.some.inj h
          rw [← this]
        · exact absurd h (by simp)
      · exact absurd h (by simp)

theorem nodup_filterMap_key {α β : Type _} (f : α → Option β) (g : β → α)
    (hf : ∀ a b, f a = some b → g b = a) :
    ∀ l : List α, l.Nodup → ((l.filterMap f).map g).Nodup := by
  intro l
  induction l with
  | nil => intro _; simp
  | cons x xs ih =>
    intro h
    obtain ⟨hx, hxs⟩ := List.nodup_cons.mp h
    cases hfx : f x with
    | none => simpa [List.filterMap_cons, hfx] using ih hxs
    | some b =>
      rw [List.filterMap_cons, hfx, List.map_cons]
      refine List.nodup_cons.mpr ⟨?_, ih hxs⟩
      intro hmem
      obtain ⟨b2, hb2, hgb2⟩ := List.mem_map.mp hmem
      obtain ⟨a2, ha2, hfa2⟩ := List.mem_filterMap.mp hb2
      have h1 : g b2 = a2 := hf a2 b2 hfa2
      have h2 : g b = x := hf x b hfx
      rw [h2, h1] at hgb2
      exact hx (hgb2 ▸ ha2)

theorem mapping_lookup_iff (scorer : String → String → ℚ) (insts : List IpedsInst)
    (rows : List NilDeal) (t : String) (u : ℤ) :
    mapping_lookup scorer insts rows t = some u ↔
      ∃ r, mapping_step scorer insts t = some r ∧ t ∈ unique_teams rows ∧
        u = r.unitid := by
  constructor
  · intro h
    rw [mapping_lookup] at h
    cases hf : (mapping_records scorer insts rows).find? (fun r => r.team_name_clean == t) with
    | none => rw [hf] at h; exact absurd h (by simp)
    | some r =>
      rw [hf] at h
      have hu : u = r.unitid := by
        have := Option.some.inj h
        rw [← this]
      have hpr := List.find?_some hf
      have hrt : r.team_name_clean = t := by simpa using hpr
      have hrm : r ∈ mapping_records scorer insts rows := List.mem_of_find?_eq_some hf
      obtain ⟨t2, ht2, hst2⟩ := List.mem_filterMap.mp hrm
      have : t2 = t := by rw [← mapping_step_team scorer insts t2 r hst2, hrt]
      rw [this] at hst2 ht2
      exact ⟨r, hst2, ht2, hu⟩
  · intro ⟨r, hst, htm, hu⟩
    have hrm : r ∈ mapping_records scorer insts rows :=
      List.mem_filterMap.mpr ⟨t, htm, hst⟩
    have hrt : r.team_name_clean = t := mapping_step_team scorer insts t r hst
    have hex : ∃ x, x ∈ mapping_records scorer insts rows ∧
        (x.team_name_clean == t) = true := ⟨r, hrm, by simp [hrt]⟩
    have hs : ((mapping_records scorer insts rows).find?
        (fun r => r.team_name_clean == t)).isSome := List.find?_isSome.mpr hex
    obtain ⟨r2, hr2⟩ := Option.isSome_iff_exists.mp hs
    have hpr2 := List.find?_some hr2
    have hrm2 : r2 ∈ mapping_records scorer insts rows := List.mem_of_find?_eq_some hr2
    obtain ⟨t3, ht3, hst3⟩ := List.mem_filterMap.mp hrm2
    have ht3t : t3 = t := by
      rw [← mapping_step_team scorer insts t3 r2 hst3]
      simpa using hpr2
    rw [ht3t] at hst3
    have : r2 = r := by
      have := hst3.symm.trans hst
      exact Option.some.inj this
    rw [mapping_lookup, hr2, Option.map_some', this, hu]

theorem unique_teams_ne_empty (rows : List NilDeal) (t : String)
    (h : t ∈ unique_teams rows) : t ≠ "" := by
  obtain ⟨r, hr, hrt⟩ := List.mem_map.mp (pdUnique_sub _ _ h)
  have hmem := List.of_mem_filter hr
  have hne : team_name_clean r.team_committed ≠ "" := by simpa using hmem
  intro ht
  exact hne (hrt.trans ht)

/-- C5: the resolver computes (via the abstract weighted-ratio scorer)
a similarity score against every canonicalized institution name,
selects the single highest-scoring institution (earliest on ties), and
emits a mapping entry for a distinct cleaned team name if and only if
that best score is ≥ 85; the mapping is built once per distinct cleaned
name — `unique_teams` and the QA table's names are duplicate-free —
and lookup is defined only for names of `unique_teams`. -/
theorem c5_resolver_characterization (scorer : String → String → ℚ)
    (insts : List IpedsInst) (rows : List NilDeal) (hne : insts ≠ []) :
    (unique_teams rows).Nodup ∧
    ((mapping_records scorer insts rows).map (fun r => r.team_name_clean)).Nodup ∧
    (∀ t ∈ unique_teams rows, ∃ m sc idx,
        extractOne scorer t (ipeds_names insts) = some (m, sc, idx) ∧
        idx < insts.length ∧
        (ipeds_names insts)[idx]? = some m ∧
        sc = scorer t m ∧
        (∀ n ∈ ipeds_names insts, scorer t n ≤ sc) ∧
        (if (85 : ℚ) ≤ sc then
            ∃ inst, insts[idx]? = some inst ∧
              mapping_lookup scorer insts rows t = some inst.unitid
          else mapping_lookup scorer insts rows t = Option.none)) ∧
    (∀ t, t ∉ unique_teams rows → mapping_lookup scorer insts rows t = Option.none) := by
  refine ⟨pdUnique_nodup _,
    nodup_filterMap_key (mapping_step scorer insts) (fun r => r.team_name_clean)
      (fun a b hab => mapping_step_team scorer insts a b hab) _ (pdUnique_nodup _),
    ?_, ?_⟩
  · intro t ht
    have hn : ipeds_names insts ≠ [] := by
      rw [ipeds_names]
      exact fun hc => hne (List.map_eq_nil_iff.mp hc)
    obtain ⟨m, sc, idx, he, hlt, hgm, hsc, hmax⟩ := extractOne_spec scorer t (ipeds_names insts) hn
    have hlen : idx < insts.length := by
      rw [ipeds_names, List.length_map] at hlt
      exact hlt
    have h0 : ¬ t = "" := unique_teams_ne_empty rows t ht
    refine ⟨m, sc, idx, he, hlen, hgm, hsc, hmax, ?_⟩
    by_cases h85 : (85 : ℚ) ≤ sc
    · rw [if_pos h85]
      obtain ⟨inst, hinst⟩ : ∃ inst, insts[idx]? = some inst :=
        ⟨insts[idx], List.getElem?_eq_getElem hlen⟩
      refine ⟨inst, hinst, ?_⟩
      apply (mapping_lookup_iff scorer insts rows t inst.unitid).mpr
      refine ⟨⟨t, m, sc, inst.unitid⟩, ?_, ht, rfl⟩
      rw [mapping_step, if_neg h0]
      simp only [he]
      rw [if_pos h85, hinst]
    · rw [if_neg h85]
      cases hl : mapping_lookup scorer insts rows t with
      | none => rfl
      | some u =>
        obtain ⟨r, hst, _, _⟩ := (mapping_lookup_iff scorer insts rows t u).mp hl
        rw [mapping_step, if_neg h0] at hst
        simp only [he] at hst
        rw [if_neg h85] at hst
        exact absurd hst (by simp)
  · intro t ht
    cases hl : mapping_lookup scorer insts rows t with
    | none => rfl
    | some u =>
      obtain ⟨_, _, htm, _⟩ := (mapping_lookup_iff scorer insts rows t u).mp hl
      exact absurd htm ht

/-- C5 witness: the characterization applied to a concrete registry
and deal set; the accepted best match maps "texas" to unitid 7. -/
theorem c5_resolver_witness :
    (unique_teams c5rows).Nodup ∧
    mapping_lookup c5scorer c5insts c5rows "texas" = some 7 := by
  have h := c5_resolver_characterization c5scorer c5insts c5rows (by decide)
  refine ⟨h.1, ?_⟩
  obtain ⟨m, sc, idx, he, _hlt, _hm, _hsc, _hmax, hif⟩ := h.2.2.1 "texas" (by decide)
  have heval : extractOne c5scorer "texas" (ipeds_names c5insts) = some ("texas", 100, 0) := by
    decide
  rw [heval] at he
  obtain ⟨hm2, hsc2, hidx2⟩ : m = "texas" ∧ sc = 100 ∧ idx = 0 := by
    have := Option.some.inj he
    exact ⟨congrArg Prod.fst this.symm, congrArg (fun x => x.2.1) this.symm,
      congrArg (fun x => x.2.2) this.symm⟩
  rw [hsc2, if_pos (by norm_num : (85 : ℚ) ≤ 100), hidx2] at hif
  obtain ⟨inst, hgi, hlk⟩ := hif
  have hieq : inst = ⟨"Texas University", 7⟩ := by
    have : c5insts[(0 : ℕ)]? = some ⟨"Texas University", 7⟩ := by decide
    exact Option.some.inj (this.symm.trans hgi).symm
  rw [hieq] at hlk
  exact hlk

/-- C6: `clean_name` itself does map a missing value to `""`, and
blank cleaned names are filtered out — but the pipeline applies
`astype(str)` *before* `clean_name` (line 162), which renders a null
team as the string `"nan"`; `"nan"` survives the blank filter, enters
fuzzy matching as a distinct team name, and (scored as WRatio scores
it against "shenandoah") is accepted with unitid 231712, so the
null-team deal receives a unitid and stays in the mapped rows used for
institution-level aggregation — refuting the claimed exclusion. -/
theorem c6_null_team_code_bug :
    clean_name Option.none = "" ∧
    team_name_clean Option.none = "nan" ∧
    unique_teams c6rows = ["nan"] ∧
    row_unitid c6scorer c6insts c6rows ⟨some "K9", PyVal.none, Option.none⟩ = some 231712 ∧
    mapped_rows c6scorer c6insts c6rows = c6rows := by
  refine ⟨rfl, by decide, by decide, by decide, by decide⟩

theorem uint32_le_iff (a b : UInt32) : (a ≤ b) ↔ a.toNat ≤ b.toNat := ⟨fun h => h, fun h => h⟩

theorem char_le_iff (c d : Char) : (c ≤ d) ↔ c.toNat ≤ d.toNat := ⟨fun h => h, fun h => h⟩

theorem char_eq_iff (c d : Char) : (c = d) ↔ c.toNat = d.toNat := by
  constructor
  · intro h; rw [h]
  · intro h
    have h2 := congrArg Char.ofNat h
    rwa [Char.ofNat_toNat, Char.ofNat_toNat] at h2

theorem char_beq_iff (c d : Char) : (c == d) = decide (c.toNat = d.toNat) := by
  by_cases h : c = d
  · simp [h, ((char_eq_iff c d).mp h)]
  · have h2 : ¬ c.toNat = d.toNat := fun hn => h ((char_eq_iff c d).mpr hn)
    simp [h, h2]

theorem char_toNat_ofNat {n : ℕ} (h : n < 55296) : (Char.ofNat n).toNat = n := by
  rw [Char.ofNat, dif_pos (Or.inl h : Nat.isValidChar n)]
  rfl

theorem isUpper_iff (c : Char) : c.isUpper = true ↔ 65 ≤ c.toNat ∧ c.toNat ≤ 90 := by
  rw [Char.isUpper, Bool.and_eq_true, decide_eq_true_eq, decide_eq_true_eq,
    ge_iff_le, uint32_le_iff, uint32_le_iff]
  exact Iff.rfl

theorem isLower_iff (c : Char) : c.isLower = true ↔ 97 ≤ c.toNat ∧ c.toNat ≤ 122 := by
  rw [Char.isLower, Bool.and_eq_true, decide_eq_true_eq, decide_eq_true_eq,
    ge_iff_le, uint32_le_iff, uint32_le_iff]
  exact Iff.rfl

theorem isDigit_iff (c : Char) : c.isDigit = true ↔ 48 ≤ c.toNat ∧ c.toNat ≤ 57 := by
  rw [Char.isDigit, Bool.and_eq_true, decide_eq_true_eq, decide_eq_true_eq,
    ge_iff_le, uint32_le_iff, uint32_le_iff]
  exact Iff.rfl

theorem isAlphanum_iff (c : Char) : c.isAlphanum = true ↔
    ((65 ≤ c.toNat ∧ c.toNat ≤ 90) ∨ (97 ≤ c.toNat ∧ c.toNat ≤ 122) ∨
      (48 ≤ c.toNat ∧ c.toNat ≤ 57)) := by
  rw [Char.isAlphanum, Char.isAlpha, Bool.or_eq_true, Bool.or_eq_true,
    isUpper_iff, isLower_iff, isDigit_iff, or_assoc]

theorem wordChar_iff (c : Char) : wordChar c = true ↔
    ((65 ≤ c.toNat ∧ c.toNat ≤ 90) ∨ (97 ≤ c.toNat ∧ c.toNat ≤ 122) ∨
      (48 ≤ c.toNat ∧ c.toNat ≤ 57) ∨ c.toNat = 95 ∨ 128 ≤ c.toNat) := by
  rw [wordChar, Bool.or_eq_true, Bool.or_eq_true, isAlphanum_iff, char_beq_iff]
  simp only [Bool.not_eq_true', decide_eq_true_eq, decide_eq_false_iff_not]
  have h95 : '_'.toNat = 95 := rfl
  rw [h95]
  omega

theorem keepChar_iff (c : Char) : keepChar c = true ↔
    ((97 ≤ c.toNat ∧ c.toNat ≤ 122) ∨ (48 ≤ c.toNat ∧ c.toNat ≤ 57) ∨ c.toNat = 32) := by
  rw [keepChar, Bool.or_eq_true, Bool.or_eq_true, Bool.and_eq_true, isDigit_iff, char_beq_iff]
  simp only [decide_eq_true_eq, char_le_iff]
  have ha : 'a'.toNat = 97 := rfl
  have hz : 'z'.toNat = 122 := rfl
  have hs : ' '.toNat = 32 := rfl
  rw [ha, hz, hs]
  tauto

theorem pyWs_iff (c : Char) : pyWs c = true ↔
    (c.toNat = 32 ∨ c.toNat = 9 ∨ c.toNat = 10 ∨ c.toNat = 13 ∨ c.toNat = 11 ∨ c.toNat = 12) := by
  rw [pyWs]
  simp only [Bool.or_eq_true, char_beq_iff, decide_eq_true_eq]
  have h1 : ' '.toNat = 32 := rfl
  have h2 : '\t'.toNat = 9 := rfl
  have h3 : '\n'.toNat = 10 := rfl
  have h4 : '\r'.toNat = 13 := rfl
  have h5 : (Char.ofNat 11).toNat = 11 := char_toNat_ofNat (by omega)
  have h6 : (Char.ofNat 12).toNat = 12 := char_toNat_ofNat (by omega)
  rw [h1, h2, h3, h4, h5, h6]
  tauto

theorem goodChar_iff (c : Char) : goodChar c = true ↔
    (c.toNat ≤ 127 ∧ c.toNat ≠ 95 ∧ ¬(65 ≤ c.toNat ∧ c.toNat ≤ 90)) := by
  rw [goodChar]
  simp only [Bool.and_eq_true, Bool.not_eq_true', Bool.eq_false_iff, Ne, char_beq_iff,
    decide_eq_true_eq, isUpper_iff]
  have h95 : '_'.toNat = 95 := rfl
  rw [h95]
  omega

theorem toLower_toNat (c : Char) :
    (c.toLower).toNat = if 65 ≤ c.toNat ∧ c.toNat ≤ 90 then c.toNat + 32 else c.toNat := by
  rw [Char.toLower]
  by_cases h : 65 ≤ c.toNat ∧ c.toNat ≤ 90
  · rw [if_pos h, if_pos ⟨h.1, h.2⟩]
    exact char_toNat_ofNat (by omega)
  · rw [if_neg h, if_neg (fun hc => h ⟨hc.1, hc.2⟩)]

/-- A good word character is kept by the punctuation strip and is not
whitespace. -/
theorem word_good_keep (c : Char) (hg : goodChar c = true) (hw : wordChar c = true) :
    keepChar c = true ∧ pyWs c = false := by
  have h1 := (goodChar_iff c).mp hg
  have h2 := (wordChar_iff c).mp hw
  constructor
  · exact (keepChar_iff c).mpr (by omega)
  · rw [Bool.eq_false_iff, Ne]
    intro hws
    have := (pyWs_iff c).mp hws
    omega

/-- A good non-word character is sent to a space by the punctuation
strip. -/
theorem strip_good_nonword (c : Char) (hg : goodChar c = true) (hw : wordChar c = false) :
    (if keepChar c then c else ' ') = ' ' := by
  by_cases hk : keepChar c = true
  · rw [if_pos hk]
    have h1 := (keepChar_iff c).mp hk
    have h2 : ¬ wordChar c = true := by rw [hw]; simp
    rw [wordChar_iff] at h2
    have hs : ' '.toNat = 32 := rfl
    exact (char_eq_iff c ' ').mpr (by omega)
  · rw [if_neg hk]

/-- Lowercasing an ASCII, non-underscore character yields a good one. -/
theorem good_toLower (c : Char) (ha : c.toNat ≤ 127) (hu : ¬ c = '_') :
    goodChar c.toLower = true := by
  have h95 : ¬ c.toNat = 95 := fun h => hu ((char_eq_iff c '_').mpr h)
  rw [goodChar_iff, toLower_toNat]
  by_cases h : 65 ≤ c.toNat ∧ c.toNat ≤ 90
  · rw [if_pos h]; omega
  · rw [if_neg h]; omega

/-- Lowercasing fixes characters that are not upper case letters. -/
theorem toLower_fix (c : Char) (h : ¬(65 ≤ c.toNat ∧ c.toNat ≤ 90)) : c.toLower = c := by
  rw [char_eq_iff, toLower_toNat, if_neg h]

/-- A good word character is a lower case letter or a digit. -/
theorem good_word_la (c : Char) (hg : goodChar c = true) (hw : wordChar c = true) :
    (97 ≤ c.toNat ∧ c.toNat ≤ 122) ∨ (48 ≤ c.toNat ∧ c.toNat ≤ 57) := by
  have h1 := (goodChar_iff c).mp hg
  have h2 := (wordChar_iff c).mp hw
  omega

theorem toks_nil : toks [] = [] := by rw [toks.eq_def]

theorem toks_cons_word {c : Char} {rest : List Char} (hw : wordChar c = true) :
    toks (c :: rest) = (c :: rest.takeWhile wordChar) :: toks (rest.dropWhile wordChar) := by
  rw [toks.eq_def]
  simp [hw]

theorem toks_cons_nonword {c : Char} {rest : List Char} (hw : wordChar c = false) :
    toks (c :: rest) = toks rest := by
  rw [toks.eq_def]
  simp [hw]

theorem headNonWord_dropWhile (l : List Char) : headNonWord (l.dropWhile wordChar) := by
  induction l with
  | nil => trivial
  | cons c rest ih =>
    rw [List.dropWhile_cons]
    cases hw : wordChar c with
    | true => simpa [hw] using ih
    | false =>
      simp only [hw, Bool.false_eq_true, if_false]
      exact hw

theorem toks_all : ∀ l : List Char, ∀ t ∈ toks l, t ≠ [] ∧ ∀ c ∈ t, wordChar c = true
  | [] => by
    rw [toks_nil]
    intro t ht
    exact absurd ht (List.not_mem_nil t)
  | c :: rest => by
    cases hw : wordChar c with
    | false =>
      rw [toks_cons_nonword hw]
      exact toks_all rest
    | true =>
      rw [toks_cons_word hw]
      intro t ht
      rcases List.mem_cons.mp ht with h | h
      · refine ⟨by rw [h]; exact List.cons_ne_nil c _, ?_⟩
        intro d hd
        rw [h] at hd
        rcases List.mem_cons.mp hd with hd | hd
        · rw [hd]; exact hw
        · exact List.mem_takeWhile_imp hd
      · exact toks_all (rest.dropWhile wordChar) t h
termination_by l => l.length
decreasing_by
  · simp
  · simp only [List.length_cons]
    exact Nat.lt_succ_of_le (List.dropWhile_sublist wordChar).length_le

theorem takeWhile_word_run : ∀ (t r : List Char), (∀ c ∈ t, wordChar c = true) →
    headNonWord r → (t ++ r).takeWhile wordChar = t ∧ (t ++ r).dropWhile wordChar = r := by
  intro t
  induction t with
  | nil =>
    intro r _ hr
    match r with
    | [] => exact ⟨rfl, rfl⟩
    | d :: r' =>
      have hw : wordChar d = false := hr
      rw [List.nil_append, List.takeWhile_cons, List.dropWhile_cons]
      simp [hw]
  | cons c t' ih =>
    intro r ht hr
    have hc : wordChar c = true := ht c (List.mem_cons_self c t')
    have ht' : ∀ d ∈ t', wordChar d = true := fun d hd => ht d (List.mem_cons_of_mem c hd)
    obtain ⟨h1, h2⟩ := ih r ht' hr
    rw [List.cons_append, List.takeWhile_cons, List.dropWhile_cons]
    simp [hc, h1, h2]

theorem toks_append_word (t r : List Char) (hne : t ≠ [])
    (ht : ∀ c ∈ t, wordChar c = true) (hr : headNonWord r) :
    toks (t ++ r) = t :: toks r := by
  obtain ⟨c, t', rfl⟩ := List.exists_cons_of_ne_nil hne
  have hc : wordChar c = true := ht c (List.mem_cons_self c t')
  have ht' : ∀ d ∈ t', wordChar d = true := fun d hd => ht d (List.mem_cons_of_mem c hd)
  obtain ⟨h1, h2⟩ := takeWhile_word_run t' r ht' hr
  rw [List.cons_append, toks_cons_word hc, h1, h2]

theorem patsWord_headWord {pats : List (List Char)} (h : patsWord pats) : patsHeadWord pats := by
  intro p hp
  obtain ⟨hne, hall⟩ := h p hp
  obtain ⟨c, q, rfl⟩ := List.exists_cons_of_ne_nil hne
  exact ⟨c, q, rfl, hall c (List.mem_cons_self c q)⟩

theorem patHere_iff : ∀ (p l : List Char),
    patHere p l = true ↔ ∃ r, l = p ++ r ∧ headNonWord r := by
  intro p
  induction p with
  | nil =>
    intro l
    match l with
    | [] =>
      constructor
      · intro _; exact ⟨[], rfl, trivial⟩
      · intro _; rfl
    | c :: l' =>
      rw [patHere]
      constructor
      · intro h
        exact ⟨c :: l', rfl, by simpa using h⟩
      · intro ⟨r, hr, hnw⟩
        rw [List.nil_append] at hr
        rw [← hr] at hnw
        have : wordChar c = false := hnw
        simp [this]
  | cons a p' ih =>
    intro l
    match l with
    | [] =>
      rw [patHere]
      constructor
      · intro h; exact absurd h (by simp)
      · intro ⟨r, hr, _⟩
        exact absurd hr (by simp)
    | b :: l' =>
      rw [patHere, Bool.and_eq_true, ih l']
      constructor
      · intro ⟨hab, r, hr, hnw⟩
        have : a = b := by simpa using hab
        exact ⟨r, by rw [List.cons_append, ← this, hr], hnw⟩
      · intro ⟨r, hr, hnw⟩
        rw [List.cons_append] at hr
        have h1 : b = a := (List.cons.injEq _ _ _ _ ▸ hr).1
        have h2 : l' = p' ++ r := (List.cons.injEq _ _ _ _ ▸ hr).2
        exact ⟨by simp [h1], r, h2, hnw⟩

theorem patHere_block : ∀ (p t r : List Char), p ≠ [] →
    (∀ c ∈ p, wordChar c = true) → (∀ c ∈ t, wordChar c = true) → headNonWord r →
    patHere p (t ++ r) = true → p = t := by
  intro p
  induction p with
  | nil => intro t r hne _ _ _ _; exact absurd rfl hne
  | cons a p' ih =>
    intro t r _ hp ht hr hm
    match t with
    | [] =>
      rw [List.nil_append] at hm
      match r with
      | [] => rw [patHere] at hm; exact absurd hm (by simp)
      | d :: r' =>
        rw [patHere, Bool.and_eq_true] at hm
        have had : a = d := by simpa using hm.1
        have hwa : wordChar a = true := hp a (List.mem_cons_self a p')
        have hwd : wordChar d = false := hr
        rw [had, hwd] at hwa
        exact absurd hwa (by simp)
    | b :: t' =>
      rw [List.cons_append, patHere, Bool.and_eq_true] at hm
      have hab : a = b := by simpa using hm.1
      match p' with
      | [] =>
        match t' with
        | [] => rw [hab]
        | e :: t'' =>
          rw [List.cons_append, patHere] at hm
          have hwe : wordChar e = true := ht e (List.mem_cons_of_mem b (List.mem_cons_self e t''))
          have : (!wordChar e) = true := hm.2
          rw [hwe] at this
          exact absurd this (by simp)
      | a2 :: p'' =>
        have hp' : ∀ c ∈ a2 :: p'', wordChar c = true :=
          fun c hc => hp c (List.mem_cons_of_mem a hc)
        have ht' : ∀ c ∈ t', wordChar c = true :=
          fun c hc => ht c (List.mem_cons_of_mem b hc)
        have := ih t' r (List.cons_ne_nil a2 p'') hp' ht' hr hm.2
        rw [hab, this]

theorem patHere_append : ∀ (x y l : List Char),
    patHere (x ++ y) l = true → ∃ r, l = x ++ r ∧ patHere y r = true := by
  intro x
  induction x with
  | nil => intro y l h; exact ⟨l, rfl, h⟩
  | cons a x' ih =>
    intro y l h
    match l with
    | [] => rw [List.cons_append, patHere] at h; exact absurd h (by simp)
    | b :: l' =>
      rw [List.cons_append, patHere, Bool.and_eq_true] at h
      obtain ⟨r, hr, hy⟩ := ih y l' h.2
      have hab : a = b := by simpa using h.1
      exact ⟨r, by rw [List.cons_append, ← hab, hr], hy⟩

theorem reSubGo_nil (pats : List (List Char)) (rep : List Char) (skip : ℕ) (prev : Bool) :
    reSubGo pats rep skip prev [] = [] := by
  cases skip <;> rfl

theorem reSubGo_skip_cons (pats : List (List Char)) (rep : List Char) (skip : ℕ) (prev : Bool)
    (c : Char) (rest : List Char) :
    reSubGo pats rep (skip + 1) prev (c :: rest) = reSubGo pats rep skip (wordChar c) rest := rfl

theorem reSubGo_zero_true (pats : List (List Char)) (rep : List Char) (c : Char)
    (rest : List Char) :
    reSubGo pats rep 0 true (c :: rest) = c :: reSubGo pats rep 0 (wordChar c) rest := rfl

theorem reSubGo_found {pats : List (List Char)} {c q : Char} {rest qs : List Char}
    (rep : List Char) (hf : findPat pats (c :: rest) = some (q :: qs)) :
    reSubGo pats rep 0 false (c :: rest) = rep ++ reSubGo pats rep qs.length (wordChar c) rest := by
  simp [reSubGo, hf]

theorem reSubGo_notfound {pats : List (List Char)} {c : Char} {rest : List Char}
    (rep : List Char) (hf : findPat pats (c :: rest) = Option.none) :
    reSubGo pats rep 0 false (c :: rest) = c :: reSubGo pats rep 0 (wordChar c) rest := by
  simp [reSubGo, hf]

theorem reSubGo_skip_run (pats : List (List Char)) (rep : List Char) :
    ∀ (w : List Char) (prev : Bool) (r : List Char),
      reSubGo pats rep w.length prev (w ++ r) =
        reSubGo pats rep 0 (w.foldl (fun _ c => wordChar c) prev) r := by
  intro w
  induction w with
  | nil => intro prev r; rfl
  | cons c w' ih =>
    intro prev r
    rw [List.cons_append, List.length_cons, reSubGo_skip_cons, List.foldl_cons]
    exact ih (wordChar c) r

theorem foldl_word_true : ∀ w : List Char, (∀ c ∈ w, wordChar c = true) →
    w.foldl (fun _ c => wordChar c) true = true := by
  intro w
  induction w with
  | nil => intro _; rfl
  | cons c w' ih =>
    intro h
    rw [List.foldl_cons, h c (List.mem_cons_self c w')]
    exact ih (fun d hd => h d (List.mem_cons_of_mem c hd))

theorem findPat_nonword {pats : List (List Char)} (hp : patsHeadWord pats) (c : Char)
    (rest : List Char) (hw : wordChar c = false) :
    findPat pats (c :: rest) = Option.none := by
  rw [findPat, List.find?_eq_none]
  intro p hmem hcon
  obtain ⟨d, q, rfl, hd⟩ := hp p hmem
  rw [Bool.and_eq_true, patHere, Bool.and_eq_true] at hcon
  have hdc : d = c := by simpa using hcon.2.1
  rw [hdc, hw] at hd
  exact absurd hd (by simp)

theorem reSubGo_prev_irrel {pats : List (List Char)} (rep : List Char)
    (hp : patsHeadWord pats) : ∀ r : List Char, headNonWord r →
    reSubGo pats rep 0 true r = reSubGo pats rep 0 false r := by
  intro r hr
  match r with
  | [] => rfl
  | d :: r' =>
    have hw : wordChar d = false := hr
    rw [reSubGo_zero_true, reSubGo_notfound rep (findPat_nonword hp d r' hw)]

theorem reSubGo_inside (pats : List (List Char)) (rep : List Char) :
    ∀ u : List Char, (∀ c ∈ u, wordChar c = true) →
      ∀ r, reSubGo pats rep 0 true (u ++ r) = u ++ reSubGo pats rep 0 true r := by
  intro u
  induction u with
  | nil => intro _ r; rfl
  | cons c u' ih =>
    intro h r
    rw [List.cons_append, reSubGo_zero_true, h c (List.mem_cons_self c u'),
      ih (fun d hd => h d (List.mem_cons_of_mem c hd)) r, List.cons_append]

theorem headNonWord_reSubGo {pats : List (List Char)} (hp : patsHeadWord pats)
    (r : List Char) (hr : headNonWord r) :
    headNonWord (reSubGo pats [] 0 false r) := by
  match r with
  | [] => rw [reSubGo_nil]; trivial
  | d :: r' =>
    have hw : wordChar d = false := hr
    rw [reSubGo_notfound [] (findPat_nonword hp d r' hw)]
    exact hw

/-- One `re.sub` pass of a word-bounded alternation acts on the token
view as a filter: it deletes exactly the tokens equal to one of the
patterns and leaves every other character in place. -/
theorem reSub_toks_filter {pats : List (List Char)} (hw : patsWord pats) :
    ∀ l : List Char,
      toks (reSubGo pats [] 0 false l) = (toks l).filter (fun t => decide (t ∉ pats))
  | [] => by
    rw [reSubGo_nil, toks_nil]
    rfl
  | c :: rest => by
    cases hwc : wordChar c with
    | false =>
      have hf := findPat_nonword (patsWord_headWord hw) c rest hwc
      rw [reSubGo_notfound [] hf, hwc, toks_cons_nonword hwc, toks_cons_nonword hwc]
      exact reSub_toks_filter hw rest
    | true =>
      have heq : c :: rest = (c :: rest.takeWhile wordChar) ++ rest.dropWhile wordChar := by
        rw [List.cons_append, List.takeWhile_append_dropWhile]
      have htall : ∀ d ∈ c :: rest.takeWhile wordChar, wordChar d = true := by
        intro d hd
        rcases List.mem_cons.mp hd with hd | hd
        · rw [hd]; exact hwc
        · exact List.mem_takeWhile_imp hd
      have hrnw : headNonWord (rest.dropWhile wordChar) := headNonWord_dropWhile rest
      have htoks : toks (c :: rest)
          = (c :: rest.takeWhile wordChar) :: toks (rest.dropWhile wordChar) :=
        toks_cons_word hwc
      have hrest : rest = rest.takeWhile wordChar ++ rest.dropWhile wordChar :=
        (List.takeWhile_append_dropWhile wordChar rest).symm
      by_cases htp : (c :: rest.takeWhile wordChar) ∈ pats
      · cases hf : findPat pats (c :: rest) with
        | none =>
          exfalso
          rw [findPat, List.find?_eq_none] at hf
          apply hf _ htp
          rw [Bool.and_eq_true]
          refine ⟨by simp, ?_⟩
          rw [heq]
          exact (patHere_iff _ _).mpr ⟨rest.dropWhile wordChar, rfl, hrnw⟩
        | some p =>
          have hprop := List.find?_some hf
          have hpmem := List.mem_of_find?_eq_some hf
          rw [Bool.and_eq_true] at hprop
          obtain ⟨hpn, hpw⟩ := hw p hpmem
          have hpt : p = c :: rest.takeWhile wordChar := by
            apply patHere_block p _ (rest.dropWhile wordChar) hpn hpw htall hrnw
            rw [← heq]
            exact hprop.2
          rw [hpt] at hf
          rw [reSubGo_found [] hf, List.nil_append]
          have hstep : reSubGo pats [] (rest.takeWhile wordChar).length (wordChar c)
                (rest.takeWhile wordChar ++ rest.dropWhile wordChar)
              = reSubGo pats [] 0 false (rest.dropWhile wordChar) := by
            rw [reSubGo_skip_run, hwc,
              foldl_word_true _ (fun d hd => List.mem_takeWhile_imp hd)]
            exact reSubGo_prev_irrel [] (patsWord_headWord hw) _ hrnw
          rw [← hrest] at hstep
          rw [hstep, reSub_toks_filter hw (rest.dropWhile wordChar), htoks, List.filter_cons]
          simp [htp]
      · have hf : findPat pats (c :: rest) = Option.none := by
          rw [findPat, List.find?_eq_none]
          intro p hpmem hcon
          rw [Bool.and_eq_true] at hcon
          obtain ⟨hpn, hpw⟩ := hw p hpmem
          have hpt : p = c :: rest.takeWhile wordChar := by
            apply patHere_block p _ (rest.dropWhile wordChar) hpn hpw htall hrnw
            rw [← heq]
            exact hcon.2
          exact htp (hpt ▸ hpmem)
        rw [reSubGo_notfound [] hf, hwc]
        have hstep : reSubGo pats [] 0 true (rest.takeWhile wordChar ++ rest.dropWhile wordChar)
            = rest.takeWhile wordChar ++ reSubGo pats [] 0 false (rest.dropWhile wordChar) := by
          rw [reSubGo_inside pats [] _ (fun d hd => List.mem_takeWhile_imp hd),
            reSubGo_prev_irrel [] (patsWord_headWord hw) _ hrnw]
        rw [← hrest] at hstep
        rw [hstep]
        have hX : headNonWord (reSubGo pats [] 0 false (rest.dropWhile wordChar)) :=
          headNonWord_reSubGo (patsWord_headWord hw) _ hrnw
        have hcons : c :: (rest.takeWhile wordChar
              ++ reSubGo pats [] 0 false (rest.dropWhile wordChar))
            = (c :: rest.takeWhile wordChar)
              ++ reSubGo pats [] 0 false (rest.dropWhile wordChar) := rfl
        rw [hcons, toks_append_word _ _ (List.cons_ne_nil c _) htall hX,
          reSub_toks_filter hw (rest.dropWhile wordChar), htoks, List.filter_cons]
        simp [htp]
termination_by l => l.length
decreasing_by
  all_goals simp only [List.length_cons]
  all_goals first
    | omega
    | exact Nat.lt_succ_of_le (List.dropWhile_sublist wordChar).length_le

theorem word_run_eq : ∀ (t S r w : List Char), (∀ c ∈ t, wordChar c = true) →
    (∀ c ∈ S, wordChar c = true) → headNonWord r → headNonWord w →
    t ++ r = S ++ w → t = S ∧ r = w := by
  intro t
  induction t with
  | nil =>
    intro S r w _ hS hr _ heq
    rw [List.nil_append] at heq
    match S with
    | [] => rw [List.nil_append] at heq; exact ⟨rfl, heq⟩
    | s :: S' =>
      rw [List.cons_append] at heq
      rw [heq] at hr
      have hf : wordChar s = false := hr
      have hws : wordChar s = true := hS s (List.mem_cons_self s S')
      rw [hf] at hws
      exact absurd hws (by simp)
  | cons a t' ih =>
    intro S r w ht hS hr hw heq
    match S with
    | [] =>
      rw [List.nil_append] at heq
      rw [← heq] at hw
      have hf : wordChar a = false := hw
      have hwa : wordChar a = true := ht a (List.mem_cons_self a t')
      rw [hf] at hwa
      exact absurd hwa (by simp)
    | s :: S' =>
      rw [List.cons_append, List.cons_append] at heq
      have h1 : a = s := (List.cons.injEq _ _ _ _ ▸ heq).1
      have h2 : t' ++ r = S' ++ w := (List.cons.injEq _ _ _ _ ▸ heq).2
      obtain ⟨ha, hb⟩ := ih S' r w (fun c hc => ht c (List.mem_cons_of_mem a hc))
        (fun c hc => hS c (List.mem_cons_of_mem s hc)) hr hw h2
      exact ⟨by rw [h1, ha], hb⟩

/-- A two-word pattern `\bS U\b` (like `state university`) cannot
match a string none of whose tokens equals `U`, so its `re.sub` pass
is the identity there. -/
theorem reSub_two_word_noop {S U : List Char} (hS : S ≠ [])
    (hSw : ∀ c ∈ S, wordChar c = true) (hU : U ≠ [])
    (hUw : ∀ c ∈ U, wordChar c = true) (rep : List Char) :
    ∀ l : List Char, U ∉ toks l → reSubGo [S ++ ' ' :: U] rep 0 false l = l
  | [] => fun _ => by rw [reSubGo_nil]
  | c :: rest => fun hmem => by
    have hp7 : patsHeadWord [S ++ ' ' :: U] := by
      intro p hp
      rw [List.mem_singleton] at hp
      obtain ⟨s0, S', rfl⟩ := List.exists_cons_of_ne_nil hS
      exact ⟨s0, S' ++ ' ' :: U, by rw [hp, List.cons_append],
        hSw s0 (List.mem_cons_self _ _)⟩
    cases hwc : wordChar c with
    | false =>
      rw [reSubGo_notfound rep (findPat_nonword hp7 c rest hwc), hwc]
      have ht : toks (c :: rest) = toks rest := toks_cons_nonword hwc
      rw [ht] at hmem
      rw [reSub_two_word_noop hS hSw hU hUw rep rest hmem]
    | true =>
      have heq : c :: rest = (c :: rest.takeWhile wordChar) ++ rest.dropWhile wordChar := by
        rw [List.cons_append, List.takeWhile_append_dropWhile]
      have htall : ∀ d ∈ c :: rest.takeWhile wordChar, wordChar d = true := by
        intro d hd
        rcases List.mem_cons.mp hd with hd | hd
        · rw [hd]; exact hwc
        · exact List.mem_takeWhile_imp hd
      have hrnw : headNonWord (rest.dropWhile wordChar) := headNonWord_dropWhile rest
      have htoks : toks (c :: rest)
          = (c :: rest.takeWhile wordChar) :: toks (rest.dropWhile wordChar) :=
        toks_cons_word hwc
      have hrest : rest = rest.takeWhile wordChar ++ rest.dropWhile wordChar :=
        (List.takeWhile_append_dropWhile wordChar rest).symm
      have hf : findPat [S ++ ' ' :: U] (c :: rest) = Option.none := by
        rw [findPat, List.find?_eq_none]
        intro p hpmem hcon
        rw [List.mem_singleton] at hpmem
        rw [Bool.and_eq_true, hpmem] at hcon
        obtain ⟨r2, hr2, hU2⟩ := patHere_append S (' ' :: U) (c :: rest) hcon.2
        match r2, hU2 with
        | [], hU2 => exact absurd hU2 (by rw [patHere]; simp)
        | d :: r3, hU2 =>
          rw [patHere, Bool.and_eq_true] at hU2
          have hd : ' ' = d := by simpa using hU2.1
          have hnw : headNonWord (d :: r3) := by
            show wordChar d = false
            rw [← hd]
            decide
          rw [heq] at hr2
          obtain ⟨hts, hrw⟩ := word_run_eq (c :: rest.takeWhile wordChar) S
            (rest.dropWhile wordChar) (d :: r3) htall hSw hrnw hnw hr2
          obtain ⟨r4, hr4, hnw4⟩ := (patHere_iff U r3).mp hU2.2
          have htoksr3 : toks r3 = U :: toks r4 := by
            rw [hr4]
            exact toks_append_word U r4 hU hUw hnw4
          have : U ∈ toks (c :: rest) := by
            rw [htoks, hrw]
            have hd2 : toks (d :: r3) = toks r3 := toks_cons_nonword (by rw [← hd]; decide)
            rw [hd2, htoksr3]
            exact List.mem_cons_of_mem _ (List.mem_cons_self U _)
          exact hmem this
      rw [reSubGo_notfound rep hf, hwc]
      have hstep : reSubGo [S ++ ' ' :: U] rep 0 true
            (rest.takeWhile wordChar ++ rest.dropWhile wordChar)
          = rest.takeWhile wordChar
            ++ reSubGo [S ++ ' ' :: U] rep 0 false (rest.dropWhile wordChar) := by
        rw [reSubGo_inside _ rep _ (fun d hd => List.mem_takeWhile_imp hd),
          reSubGo_prev_irrel rep hp7 _ hrnw]
      rw [← hrest] at hstep
      rw [hstep]
      have hmemr : U ∉ toks (rest.dropWhile wordChar) := by
        intro hc
        exact hmem (by rw [htoks]; exact List.mem_cons_of_mem _ hc)
      rw [reSub_two_word_noop hS hSw hU hUw rep (rest.dropWhile wordChar) hmemr]
      rw [← List.cons_append, ← heq]
termination_by l => l.length
decreasing_by
  all_goals simp only [List.length_cons]
  all_goals first
    | omega
    | exact Nat.lt_succ_of_le (List.dropWhile_sublist wordChar).length_le

theorem pyStrip_eq (l : List Char) : pyStrip l = rstripWs (l.dropWhile pyWs) := rfl

theorem stripNonKeep_keep_id : ∀ t : List Char, (∀ c ∈ t, keepChar c = true) →
    stripNonKeep t = t := by
  intro t
  induction t with
  | nil => intro _; rfl
  | cons c t' ih =>
    intro h
    rw [stripNonKeep, List.map_cons, if_pos (h c (List.mem_cons_self c t'))]
    have := ih (fun d hd => h d (List.mem_cons_of_mem c hd))
    rw [stripNonKeep] at this
    rw [this]

theorem stripNonKeep_append (t r : List Char) :
    stripNonKeep (t ++ r) = stripNonKeep t ++ stripNonKeep r := by
  rw [stripNonKeep, stripNonKeep, stripNonKeep, List.map_append]

theorem collapseGo_false_cons_nonws {c : Char} (hc : pyWs c = false) (Q : List Char) :
    collapseGo false (c :: Q) = c :: collapseGo false Q := by
  simp [collapseGo, hc]

theorem collapseGo_false_cons_ws {c : Char} (hc : pyWs c = true) (Q : List Char) :
    collapseGo false (c :: Q) = ' ' :: collapseGo true Q := by
  simp [collapseGo, hc]

theorem collapseGo_true_cons_ws {c : Char} (hc : pyWs c = true) (Q : List Char) :
    collapseGo true (c :: Q) = collapseGo true Q := by
  simp [collapseGo, hc]

theorem collapseGo_true_cons_nonws {c : Char} (hc : pyWs c = false) (Q : List Char) :
    collapseGo true (c :: Q) = c :: collapseGo false Q := by
  simp [collapseGo, hc]

theorem collapseGo_false_append (t Q : List Char) (ht : ∀ c ∈ t, pyWs c = false) :
    collapseGo false (t ++ Q) = t ++ collapseGo false Q := by
  induction t with
  | nil => rfl
  | cons c t' ih =>
    rw [List.cons_append, collapseGo_false_cons_nonws (ht c (List.mem_cons_self c t')),
      ih (fun d hd => ht d (List.mem_cons_of_mem c hd)), List.cons_append]

theorem dropWhile_nonws_id (l : List Char) (h : ∀ c ∈ l, pyWs c = false) :
    l.dropWhile pyWs = l := by
  match l with
  | [] => rfl
  | c :: l' =>
    rw [List.dropWhile_cons, h c (List.mem_cons_self c l')]
    simp

theorem rstripWs_nonws_append (t X : List Char) (ht : ∀ c ∈ t, pyWs c = false) :
    rstripWs (t ++ X) = t ++ rstripWs X := by
  rw [rstripWs, List.reverse_append, List.dropWhile_append]
  by_cases h : (X.reverse.dropWhile pyWs).isEmpty
  · rw [if_pos h]
    have hX : rstripWs X = [] := by
      rw [rstripWs, List.isEmpty_iff.mp h, List.reverse_nil]
    have hrev : ∀ c ∈ t.reverse, pyWs c = false := fun c hc => ht c (List.mem_reverse.mp hc)
    rw [dropWhile_nonws_id t.reverse hrev, List.reverse_reverse, hX, List.append_nil]
  · rw [if_neg h, List.reverse_append, List.reverse_reverse, rstripWs]

theorem rstripWs_space_cons (A : List Char) :
    rstripWs (' ' :: A) = if rstripWs A = [] then [] else ' ' :: rstripWs A := by
  rw [rstripWs, List.reverse_cons, List.dropWhile_append]
  by_cases h : (A.reverse.dropWhile pyWs).isEmpty
  · rw [if_pos h]
    have hA : rstripWs A = [] := by rw [rstripWs, List.isEmpty_iff.mp h, List.reverse_nil]
    rw [if_pos hA]
    have hsp : ([' '] : List Char).dropWhile pyWs = [] := by decide
    rw [hsp, List.reverse_nil]
  · rw [if_neg h]
    have hA : ¬ rstripWs A = [] := by
      rw [rstripWs]
      intro hc
      rw [List.reverse_eq_nil_iff] at hc
      rw [hc] at h
      exact h (by rfl)
    rw [if_neg hA, List.reverse_append, rstripWs]
    rfl

theorem collapseGo_true_head : ∀ Q : List Char,
    (collapseGo true Q = []) ∨ ∃ c A, collapseGo true Q = c :: A ∧ pyWs c = false := by
  intro Q
  induction Q with
  | nil => exact Or.inl rfl
  | cons q Q' ih =>
    cases hq : pyWs q with
    | true => rw [collapseGo_true_cons_ws hq]; exact ih
    | false =>
      rw [collapseGo_true_cons_nonws hq]
      exact Or.inr ⟨q, collapseGo false Q', rfl, hq⟩

theorem lstrip_collapse_true_false (Q : List Char) :
    (collapseGo true Q).dropWhile pyWs = (collapseGo false Q).dropWhile pyWs := by
  match Q with
  | [] => rfl
  | q :: Q' =>
    cases hq : pyWs q with
    | true =>
      rw [collapseGo_true_cons_ws hq, collapseGo_false_cons_ws hq, List.dropWhile_cons]
      have hspc : pyWs ' ' = true := by decide
      rw [hspc]
      simp
    | false =>
      rw [collapseGo_true_cons_nonws hq, collapseGo_false_cons_nonws hq]

theorem lstrip_collapse_true_id (Q : List Char) :
    (collapseGo true Q).dropWhile pyWs = collapseGo true Q := by
  rcases collapseGo_true_head Q with h | ⟨c, A, h, hc⟩
  · rw [h]; rfl
  · rw [h, List.dropWhile_cons, hc]
    simp

theorem joinToks_toks_eq_nil (l : List Char) :
    joinToks (toks l) = [] ↔ toks l = [] := by
  constructor
  · intro h
    cases ht : toks l with
    | nil => rfl
    | cons t ts =>
      obtain ⟨hne, _⟩ := toks_all l t (by rw [ht]; exact List.mem_cons_self t ts)
      rw [ht, joinToks] at h
      rw [List.append_eq_nil] at h
      exact absurd h.1 hne
  · intro h
    rw [h]
    rfl

/-- On good strings, the punctuation strip, whitespace collapse, and
final strip amount to joining the word tokens with single spaces. -/
theorem gather_eq_joinToks : ∀ l : List Char, goodList l →
    pyStrip (collapseWs (stripNonKeep l)) = joinToks (toks l)
  | [] => fun _ => by rw [toks_nil]; rfl
  | c :: rest => fun hg => by
    have hgc : goodChar c = true := hg c (List.mem_cons_self c rest)
    have hgrest : goodList rest := fun d hd => hg d (List.mem_cons_of_mem c hd)
    cases hwc : wordChar c with
    | false =>
      have hs : stripNonKeep (c :: rest) = ' ' :: stripNonKeep rest := by
        rw [stripNonKeep, List.map_cons, strip_good_nonword c hgc hwc]
        rfl
      rw [collapseWs, hs, collapseGo_false_cons_ws (by decide), pyStrip_eq, List.dropWhile_cons]
      have hspc : pyWs ' ' = true := by decide
      rw [hspc, if_pos rfl, lstrip_collapse_true_false]
      have hback : rstripWs ((collapseGo false (stripNonKeep rest)).dropWhile pyWs)
          = pyStrip (collapseWs (stripNonKeep rest)) := rfl
      rw [hback, gather_eq_joinToks rest hgrest, toks_cons_nonword hwc]
    | true =>
      have heq : c :: rest = (c :: rest.takeWhile wordChar) ++ rest.dropWhile wordChar := by
        rw [List.cons_append, List.takeWhile_append_dropWhile]
      have htall : ∀ d ∈ c :: rest.takeWhile wordChar, wordChar d = true := by
        intro d hd
        rcases List.mem_cons.mp hd with hd | hd
        · rw [hd]; exact hwc
        · exact List.mem_takeWhile_imp hd
      have hgt : ∀ d ∈ c :: rest.takeWhile wordChar, goodChar d = true := by
        intro d hd
        rcases List.mem_cons.mp hd with hd | hd
        · rw [hd]; exact hgc
        · exact hgrest d ((List.takeWhile_sublist wordChar).subset hd)
      have htkeep : ∀ d ∈ c :: rest.takeWhile wordChar, keepChar d = true :=
        fun d hd => (word_good_keep d (hgt d hd) (htall d hd)).1
      have htnws : ∀ d ∈ c :: rest.takeWhile wordChar, pyWs d = false :=
        fun d hd => (word_good_keep d (hgt d hd) (htall d hd)).2
      have hrnw : headNonWord (rest.dropWhile wordChar) := headNonWord_dropWhile rest
      have hsk : stripNonKeep (c :: rest)
          = (c :: rest.takeWhile wordChar) ++ stripNonKeep (rest.dropWhile wordChar) := by
        conv_lhs => rw [heq]
        rw [stripNonKeep_append, stripNonKeep_keep_id _ htkeep]
      rw [collapseWs, hsk, collapseGo_false_append _ _ htnws, pyStrip_eq]
      have hdw : ((c :: rest.takeWhile wordChar)
            ++ collapseGo false (stripNonKeep (rest.dropWhile wordChar))).dropWhile pyWs
          = (c :: rest.takeWhile wordChar)
            ++ collapseGo false (stripNonKeep (rest.dropWhile wordChar)) := by
        rw [List.cons_append, List.dropWhile_cons,
          htnws c (List.mem_cons_self c (rest.takeWhile wordChar))]
        simp
      rw [hdw, rstripWs_nonws_append _ _ htnws]
      rw [toks_cons_word hwc]
      cases hsplit : rest.dropWhile wordChar with
      | nil =>
        have h0 : stripNonKeep ([] : List Char) = [] := rfl
        rw [h0]
        rw [show collapseGo false ([] : List Char) = [] from rfl]
        rw [show rstripWs ([] : List Char) = [] from rfl]
        rw [toks_nil, joinToks]
        simp
      | cons d r' =>
        have hdmem : d ∈ rest := (List.dropWhile_sublist wordChar).subset
          (by rw [hsplit]; exact List.mem_cons_self d r')
        have hdg : goodChar d = true := hgrest d hdmem
        have hdw2 : wordChar d = false := by
          have := hrnw
          rw [hsplit] at this
          exact this
        have hgr' : goodList r' := by
          intro e he
          apply hgrest
          exact (List.dropWhile_sublist wordChar).subset (by rw [hsplit]; exact List.mem_cons_of_mem d he)
        have hsd : stripNonKeep (d :: r') = ' ' :: stripNonKeep r' := by
          rw [stripNonKeep, List.map_cons, strip_good_nonword d hdg hdw2]
          rfl
        rw [hsd, collapseGo_false_cons_ws (by decide), rstripWs_space_cons]
        have hA : rstripWs (collapseGo true (stripNonKeep r'))
            = pyStrip (collapseWs (stripNonKeep r')) := by
          rw [pyStrip_eq, collapseWs, ← lstrip_collapse_true_false, lstrip_collapse_true_id]
        rw [hA, gather_eq_joinToks r' hgr', toks_cons_nonword hdw2]
        rw [joinToks]
        by_cases hnil : toks r' = []
        · rw [if_pos (by rw [(joinToks_toks_eq_nil r')]; exact hnil),
            if_pos (by rw [hnil]; rfl)]
        · rw [if_neg (fun hc => hnil ((joinToks_toks_eq_nil r').mp hc)),
            if_neg (by rw [List.isEmpty_iff]; exact hnil)]
termination_by l => l.length
decreasing_by
  · simp only [List.length_cons]
    omega
  · simp only [List.length_cons]
    have h1 : (rest.dropWhile wordChar).length ≤ rest.length :=
      (List.dropWhile_sublist wordChar).length_le
    rw [hsplit] at h1
    simp only [List.length_cons] at h1
    omega

theorem reSubGo_found_nil {pats : List (List Char)} {c : Char} {rest : List Char}
    (rep : List Char) (hf : findPat pats (c :: rest) = some []) :
    reSubGo pats rep 0 false (c :: rest) = c :: reSubGo pats rep 0 (wordChar c) rest := by
  simp [reSubGo, hf]

theorem reSubGo_subset {pats : List (List Char)} {rep : List Char} :
    ∀ (l : List Char) (skip : ℕ) (prev : Bool) (c : Char),
      c ∈ reSubGo pats rep skip prev l → c ∈ rep ∨ c ∈ l
  | [] => by
    intro skip prev c hc
    rw [reSubGo_nil] at hc
    exact absurd hc (List.not_mem_nil c)
  | d :: rest => by
    intro skip prev c hc
    match skip with
    | skip' + 1 =>
      rw [reSubGo_skip_cons] at hc
      rcases reSubGo_subset rest skip' (wordChar d) c hc with h | h
      · exact Or.inl h
      · exact Or.inr (List.mem_cons_of_mem d h)
    | 0 =>
      match prev with
      | true =>
        rw [reSubGo_zero_true] at hc
        rcases List.mem_cons.mp hc with h | h
        · exact Or.inr (h ▸ List.mem_cons_self d rest)
        · rcases reSubGo_subset rest 0 (wordChar d) c h with h | h
          · exact Or.inl h
          · exact Or.inr (List.mem_cons_of_mem d h)
      | false =>
        cases hf : findPat pats (d :: rest) with
        | none =>
          rw [reSubGo_notfound rep hf] at hc
          rcases List.mem_cons.mp hc with h | h
          · exact Or.inr (h ▸ List.mem_cons_self d rest)
          · rcases reSubGo_subset rest 0 (wordChar d) c h with h | h
            · exact Or.inl h
            · exact Or.inr (List.mem_cons_of_mem d h)
        | some p =>
          match p with
          | [] =>
            rw [reSubGo_found_nil rep hf] at hc
            rcases List.mem_cons.mp hc with h | h
            · exact Or.inr (h ▸ List.mem_cons_self d rest)
            · rcases reSubGo_subset rest 0 (wordChar d) c h with h | h
              · exact Or.inl h
              · exact Or.inr (List.mem_cons_of_mem d h)
          | q :: qs =>
            rw [reSubGo_found rep hf] at hc
            rcases List.mem_append.mp hc with h | h
            · exact Or.inl h
            · rcases reSubGo_subset rest qs.length (wordChar d) c h with h | h
              · exact Or.inl h
              · exact Or.inr (List.mem_cons_of_mem d h)
termination_by l => l.length
decreasing_by all_goals (simp only [List.length_cons]; omega)

theorem goodList_reSub {pats : List (List Char)} {rep : List Char}
    (hrep : ∀ c ∈ rep, goodChar c = true) {l : List Char} (hl : goodList l) :
    goodList (reSubGo pats rep 0 false l) := by
  intro c hc
  rcases reSubGo_subset l 0 false c hc with h | h
  · exact hrep c h
  · exact hl c h

theorem toks_subset : ∀ l : List Char, ∀ t ∈ toks l, ∀ c ∈ t, c ∈ l
  | [] => by
    rw [toks_nil]
    intro t ht
    exact absurd ht (List.not_mem_nil t)
  | d :: rest => by
    cases hw : wordChar d with
    | false =>
      rw [toks_cons_nonword hw]
      intro t ht c hc
      exact List.mem_cons_of_mem d (toks_subset rest t ht c hc)
    | true =>
      rw [toks_cons_word hw]
      intro t ht c hc
      rcases List.mem_cons.mp ht with h | h
      · rw [h] at hc
        rcases List.mem_cons.mp hc with h2 | h2
        · exact h2 ▸ List.mem_cons_self d rest
        · exact List.mem_cons_of_mem d ((List.takeWhile_sublist wordChar).subset h2)
      · have := toks_subset (rest.dropWhile wordChar) t h c hc
        exact List.mem_cons_of_mem d ((List.dropWhile_sublist wordChar).subset this)
termination_by l => l.length
decreasing_by
  all_goals simp only [List.length_cons]
  all_goals first
    | omega
    | exact Nat.lt_succ_of_le (List.dropWhile_sublist wordChar).length_le

theorem joinToks_subset : ∀ (ts : List (List Char)) (c : Char),
    c ∈ joinToks ts → (∃ t ∈ ts, c ∈ t) ∨ c = ' ' := by
  intro ts
  induction ts with
  | nil =>
    intro c hc
    exact absurd hc (List.not_mem_nil c)
  | cons t ts' ih =>
    intro c hc
    rw [joinToks] at hc
    rcases List.mem_append.mp hc with h | h
    · exact Or.inl ⟨t, List.mem_cons_self t ts', h⟩
    · by_cases hts : ts'.isEmpty
      · rw [if_pos hts] at h
        exact absurd h (List.not_mem_nil c)
      · rw [if_neg hts] at h
        rcases List.mem_cons.mp h with h | h
        · exact Or.inr h
        · rcases ih c h with ⟨t2, ht2, hc2⟩ | h2
          · exact Or.inl ⟨t2, List.mem_cons_of_mem t ht2, hc2⟩
          · exact Or.inr h2

theorem goodList_pyLower (l : List Char) (h : ∀ c ∈ l, c.toNat ≤ 127 ∧ ¬ c = '_') :
    goodList (pyLower l) := by
  intro c hc
  obtain ⟨d, hd, rfl⟩ := List.mem_map.mp hc
  exact good_toLower d (h d hd).1 (h d hd).2

theorem pyLower_id_good (l : List Char) (h : goodList l) : pyLower l = l := by
  rw [pyLower]
  have hmap : l.map Char.toLower = l.map id := by
    apply List.map_congr_left
    intro c hc
    have := (goodChar_iff c).mp (h c hc)
    exact toLower_fix c (by omega)
  rw [hmap, List.map_id]

theorem toks_joinToks : ∀ ts : List (List Char),
    (∀ t ∈ ts, t ≠ [] ∧ ∀ c ∈ t, wordChar c = true) → toks (joinToks ts) = ts := by
  intro ts
  induction ts with
  | nil => intro _; rw [joinToks, toks_nil]
  | cons t ts' ih =>
    intro h
    obtain ⟨hne, hall⟩ := h t (List.mem_cons_self t ts')
    rw [joinToks]
    by_cases hts : ts'.isEmpty
    · rw [if_pos hts, List.append_nil, List.isEmpty_iff.mp hts]
      have := toks_append_word t [] hne hall trivial
      rw [List.append_nil] at this
      rw [this, toks_nil]
    · rw [if_neg hts]
      have hnw : headNonWord (' ' :: joinToks ts') := by
        show wordChar ' ' = false
        decide
      rw [toks_append_word t _ hne hall hnw,
        toks_cons_nonword (by decide : wordChar ' ' = false),
        ih (fun u hu => h u (List.mem_cons_of_mem t hu))]

theorem filter_stable {α : Type _} (f : α → Bool) :
    ∀ l : List α, (l.filter f).filter f = l.filter f := by
  intro l
  induction l with
  | nil => rfl
  | cons x xs ih =>
    cases hf : f x with
    | true => rw [List.filter_cons, if_pos (by rw [hf]), List.filter_cons, if_pos (by rw [hf]), ih]
    | false => rw [List.filter_cons, if_neg (by rw [hf]; simp), ih]

theorem toks_cleanRules (z : List Char) :
    toks (cleanRules z) = (toks z).filter keepTok := by
  have hw1 : patsWord ["university".data] := by unfold patsWord; decide
  have hw2 : patsWord ["college".data] := by unfold patsWord; decide
  have hw3 : patsWord ["the".data] := by unfold patsWord; decide
  have hw4 : patsWord ["men".data, "women".data] := by unfold patsWord; decide
  have hw5 : patsWord ["fb".data, "ncaa".data] := by unfold patsWord; decide
  have hw6 : patsWord ["football".data] := by unfold patsWord; decide
  have hsu : ("state university".data : List Char) =
      "state".data ++ ' ' :: "university".data := by decide
  have hS : ("state".data : List Char) ≠ [] := by decide
  have hSw : ∀ c ∈ "state".data, wordChar c = true := by decide
  have hU : ("university".data : List Char) ≠ [] := by decide
  have hUw : ∀ c ∈ "university".data, wordChar c = true := by decide
  have hWt : toks (reSubGo ["football".data] [] 0 false
      (reSubGo ["fb".data, "ncaa".data] [] 0 false
        (reSubGo ["men".data, "women".data] [] 0 false
          (reSubGo ["the".data] [] 0 false
            (reSubGo ["college".data] [] 0 false
              (reSubGo ["university".data] [] 0 false z)))))) =
      (toks z).filter keepTok := by
    rw [reSub_toks_filter hw6, reSub_toks_filter hw5, reSub_toks_filter hw4,
      reSub_toks_filter hw3, reSub_toks_filter hw2, reSub_toks_filter hw1]
    simp only [List.filter_filter]
    rfl
  have hUnotin : "university".data ∉ toks (reSubGo ["football".data] [] 0 false
      (reSubGo ["fb".data, "ncaa".data] [] 0 false
        (reSubGo ["men".data, "women".data] [] 0 false
          (reSubGo ["the".data] [] 0 false
            (reSubGo ["college".data] [] 0 false
              (reSubGo ["university".data] [] 0 false z)))))) := by
    rw [hWt]
    intro hmem
    have hk := (List.mem_filter.mp hmem).2
    rw [show keepTok "university".data = false from by decide] at hk
    exact Bool.false_ne_true hk
  have hnoop := reSub_two_word_noop hS hSw hU hUw "state".data
    (reSubGo ["football".data] [] 0 false
      (reSubGo ["fb".data, "ncaa".data] [] 0 false
        (reSubGo ["men".data, "women".data] [] 0 false
          (reSubGo ["the".data] [] 0 false
            (reSubGo ["college".data] [] 0 false
              (reSubGo ["university".data] [] 0 false z)))))) hUnotin
  unfold cleanRules reSub
  rw [hsu, hnoop, hWt]

theorem cleanList_eq_model (l : List Char)
    (h : ∀ c ∈ l, c.toNat ≤ 127 ∧ ¬ c = '_') :
    cleanList l = joinToks ((toks (pyLower l)).filter keepTok) := by
  have hgl : goodList (pyLower l) := goodList_pyLower l h
  have hrep_nil : ∀ c ∈ ([] : List Char), goodChar c = true := by
    intro c hc
    exact absurd hc (List.not_mem_nil c)
  have hrep_st : ∀ c ∈ "state".data, goodChar c = true := by decide
  have hgcr : goodList (cleanRules (pyLower l)) := by
    unfold cleanRules
    exact goodList_reSub hrep_st (goodList_reSub hrep_nil (goodList_reSub hrep_nil
      (goodList_reSub hrep_nil (goodList_reSub hrep_nil (goodList_reSub hrep_nil
        (goodList_reSub hrep_nil hgl))))))
  unfold cleanList
  rw [gather_eq_joinToks _ hgcr, toks_cleanRules]

theorem cleanList_idem (l : List Char)
    (h : ∀ c ∈ l, c.toNat ≤ 127 ∧ ¬ c = '_') :
    cleanList (cleanList l) = cleanList l := by
  have hM := cleanList_eq_model l h
  have hgl : goodList (pyLower l) := goodList_pyLower l h
  have htsprops : ∀ t ∈ (toks (pyLower l)).filter keepTok,
      t ≠ [] ∧ ∀ c ∈ t, wordChar c = true := by
    intro t ht
    exact toks_all (pyLower l) t (List.mem_filter.mp ht).1
  have hgood : goodList (cleanList l) := by
    rw [hM]
    intro c hc
    rcases joinToks_subset _ c hc with ⟨t, ht, hct⟩ | hsp
    · exact hgl c (toks_subset (pyLower l) t (List.mem_filter.mp ht).1 c hct)
    · rw [hsp]; decide
  have hcond : ∀ c ∈ cleanList l, c.toNat ≤ 127 ∧ ¬ c = '_' := by
    intro c hc
    have hgc := (goodChar_iff c).mp (hgood c hc)
    refine ⟨hgc.1, fun he => ?hne⟩
    rw [he] at hgc
    exact hgc.2.1 rfl
  rw [cleanList_eq_model (cleanList l) hcond, pyLower_id_good _ hgood, hM,
    toks_joinToks _ htsprops, filter_stable]

/-- C9 counterexample: `clean_name` is not idempotent as claimed. The
input `"_the"` cleans to `"the"` (the underscore is a `\w` character, so
`\bthe\b` does not match inside `_the`; the underscore then becomes a
space and is stripped), but cleaning again erases the now-free word
`"the"`, giving `""`. -/
theorem c9_idempotence_counterexample :
    clean_name (some "_the") = "the" ∧
      clean_name (some (clean_name (some "_the"))) ≠ clean_name (some "_the") := by
  constructor
  · decide
  · decide

/-- C9 (amended): `clean_name` is idempotent on every input whose
characters are ASCII and contain no underscore — in particular on all
real institution strings of this pipeline. Proof: on such input the
result is the list of surviving lowercase word tokens joined by single
spaces; that normal form is fixed by a second pass. -/
theorem c9_idempotence_amended (s : String)
    (h : ∀ c ∈ s.data, c.toNat ≤ 127 ∧ ¬ c = '_') :
    clean_name (some (clean_name (some s))) = clean_name (some s) :=
  congrArg String.mk (cleanList_idem s.data h)

/-- C9 witness: the amended idempotence theorem applied at the concrete
institution string `"Ohio State University"`. -/
theorem c9_idempotence_witness :
    clean_name (some (clean_name (some "Ohio State University"))) =
      clean_name (some "Ohio State University") :=
  c9_idempotence_amended "Ohio State University" (by decide)
